import Mathlib

/-!
Verification development for `saami_vocabulator.py`.

The Python source is shallowly embedded: strings are lists of characters,
Python `None` is `Option.none`, Python floats are modelled as exact rationals
(`ℚ`), raised exceptions are `Option.none` results, and Python dicts keyed by
strings are association lists.  Each definition mirrors one Python function or
statement block; the comments name the corresponding source lines.
-/

/-- Python strings are modelled as lists of characters.  The program reads and
writes files in UTF-8; since a `\n` byte never occurs inside a multi-byte
UTF-8 sequence, the byte-level line handling of the source coincides with this
character-level model. -/
abbrev Str : Type := List Char

/-!
Similarity matcher (`similar`, source lines 11-18), which delegates to
`difflib.SequenceMatcher(None, a, b).ratio()`.  The embedding below follows
CPython 3.11 `difflib.py`: `__chain_b` (b2j construction with the autojunk
heuristic), `find_longest_match` (the running-length table plus the four
extension loops) and the block sum used by `ratio`.  Since `isjunk` is `None`,
`bjunk` is empty: in `find_longest_match` the predicate `isbjunk` is
constantly false, so the "non-junk" extension loops run with a constantly true
character test and the "junk" extension loops never extend.
-/

/-- Index lists of `__chain_b` before purging: `b2jAll b c` is the ascending
list of positions of `c` in `b`, as built by `b2j.setdefault(elt, []).append(i)`. -/
def b2jAll (b : Str) (c : Char) : List Nat :=
  (List.range b.length).filter (fun j => b.get? j == some c)

/-- Autojunk heuristic of `__chain_b`: with `n = len(b) >= 200`, an element is
popular (and purged from `b2j`) when its index list is longer than
`n // 100 + 1`.  `isjunk` is `None`, so no junk purge happens before this. -/
def isPopular (b : Str) (c : Char) : Bool :=
  decide (200 ≤ b.length) && decide (b.length / 100 + 1 < (b2jAll b c).length)

/-- The purged `b2j` mapping: `b2j.get(a[i], nothing)` yields `[]` for purged
(popular) elements and the full ascending index list otherwise. -/
def b2j (b : Str) (c : Char) : List Nat :=
  if isPopular b c then [] else b2jAll b c

/-- Lookup in the running-length dictionary `j2len` (`j2len.get(j-1, 0)` uses
default `0`). -/
def rowGet (row : List (Nat × Nat)) (j : Nat) : Nat :=
  match row.find? (fun p => p.1 == j) with
  | some p => p.2
  | none => 0

/-- Inner loop of `find_longest_match` for one row `i`: walk the (ascending,
already range-filtered) index list `js`, building `newj2len` and updating the
running best block.  `k = newj2len[j] = j2len.get(j-1, 0) + 1`; in Python
`j - 1` is `-1` when `j = 0`, which is never a key, hence the `0` there.
A new best `(i-k+1, j-k+1, k)` is recorded exactly when `k > bestsize`. -/
def flmCells (oldRow : List (Nat × Nat)) (i : Nat) :
    List Nat → List (Nat × Nat) → Nat × Nat × Nat → List (Nat × Nat) × (Nat × Nat × Nat)
  | [], newRow, best => (newRow, best)
  | j :: js, newRow, best =>
    let k := (if j = 0 then 0 else rowGet oldRow (j - 1)) + 1
    let best' := if best.2.2 < k then (i + 1 - k, j + 1 - k, k) else best
    flmCells oldRow i js ((j, k) :: newRow) best'

/-- Outer loop of `find_longest_match`: for each `i` in `range(alo, ahi)`,
process the in-range occurrences of `a[i]` in `b` (`if j < blo: continue;
if j >= bhi: break` on an ascending list is a range filter), then replace
`j2len` by `newj2len`. -/
def flmRows (a b : Str) (blo bhi : Nat) :
    List Nat → List (Nat × Nat) → Nat × Nat × Nat → Nat × Nat × Nat
  | [], _, best => best
  | i :: is, row, best =>
    let js := (match a.get? i with
               | some c => b2j b c
               | none => []).filter (fun j => blo ≤ j && j < bhi)
    let res := flmCells row i js [] best
    flmRows a b blo bhi is res.1 res.2

/-- Backward extension loop of `find_longest_match` with character test `p`
(`p = not isbjunk` for the first loop, `p = isbjunk` for the third):
`while besti > alo and bestj > blo and p(b[bestj-1]) and a[besti-1] == b[bestj-1]`.
Indices are in range whenever the guard holds in the calling context, so the
out-of-range `none` branch below is never taken there. -/
def extBack (a b : Str) (alo blo : Nat) (p : Char → Bool) :
    Nat → Nat → Nat → Nat × Nat × Nat
  | 0, bestj, bestsize => (0, bestj, bestsize)
  | besti + 1, bestj, bestsize =>
    if alo < besti + 1 && blo < bestj &&
       (match b.get? (bestj - 1) with
        | some c => p c && (a.get? besti == some c)
        | none => false)
    then extBack a b alo blo p besti (bestj - 1) (bestsize + 1)
    else (besti + 1, bestj, bestsize)

/-- Forward extension loop of `find_longest_match` with character test `p`:
`while besti+bestsize < ahi and bestj+bestsize < bhi and p(b[bestj+bestsize])
and a[besti+bestsize] == b[bestj+bestsize]: bestsize += 1`.  The loop runs at
most `ahi` times (the guard needs `besti + bestsize < ahi` and each pass
increments `bestsize`), so fuel `ahi` is always sufficient. -/
def extFwd (a b : Str) (ahi bhi : Nat) (p : Char → Bool) :
    Nat → Nat → Nat → Nat → Nat
  | 0, _, _, bestsize => bestsize
  | fuel + 1, besti, bestj, bestsize =>
    if besti + bestsize < ahi && bestj + bestsize < bhi &&
       (match b.get? (bestj + bestsize) with
        | some c => p c && (a.get? (besti + bestsize) == some c)
        | none => false)
    then extFwd a b ahi bhi p fuel besti bestj (bestsize + 1)
    else bestsize

/-- Embedding of `SequenceMatcher.find_longest_match(alo, ahi, blo, bhi)` for
`isjunk = None`: the running-length table scan starting from
`besti, bestj, bestsize = alo, blo, 0`, then the two non-junk extension loops
(character test constantly true, as `bjunk` is empty), then the two junk
extension loops (character test constantly false, so they never move). -/
def findLongestMatch (a b : Str) (alo ahi blo bhi : Nat) : Nat × Nat × Nat :=
  let best0 := flmRows a b blo bhi (List.range' alo (ahi - alo)) [] (alo, blo, 0)
  let bestA := extBack a b alo blo (fun _ => true) best0.1 best0.2.1 best0.2.2
  let szB := extFwd a b ahi bhi (fun _ => true) ahi bestA.1 bestA.2.1 bestA.2.2
  let bestC := extBack a b alo blo (fun _ => false) bestA.1 bestA.2.1 szB
  let szD := extFwd a b ahi bhi (fun _ => false) ahi bestC.1 bestC.2.1 bestC.2.2
  (bestC.1, bestC.2.1, szD)

/-- Total size of the matching blocks found by `get_matching_blocks` on the
window `a[alo:ahi]` versus `b[blo:bhi]`.  The queue in the source processes
each window independently, recursing on the pieces left and right of the
longest match when it is non-empty, so the block-size sum satisfies this
recursion; the final sort and merging of adjacent blocks in the source do not
change the sum, and `ratio` only uses the sum.  Each recursive call strictly
shrinks `ahi - alo`, so fuel `len a + len b + 1` never runs out on the top
level call. -/
def matchingSum (a b : Str) : Nat → Nat → Nat → Nat → Nat → Nat
  | 0, _, _, _, _ => 0
  | fuel + 1, alo, ahi, blo, bhi =>
    let m := findLongestMatch a b alo ahi blo bhi
    let i := m.1
    let j := m.2.1
    let k := m.2.2
    if k = 0 then 0
    else k + (if alo < i && blo < j then matchingSum a b fuel alo i blo j else 0)
           + (if i + k < ahi && j + k < bhi then matchingSum a b fuel (i + k) ahi (j + k) bhi else 0)

/-- Embedding of `SequenceMatcher.ratio()`: `2.0 * matches / (len(a) + len(b))`,
and `1.0` when both sequences are empty (`_calculate_ratio`).  The Python float
is modelled as an exact rational. -/
def ratio (a b : Str) : ℚ :=
  let m := matchingSum a b (a.length + b.length + 1) 0 a.length 0 b.length
  if a.length + b.length = 0 then 1 else 2 * (m : ℚ) / (a.length + b.length)

/-- Embedding of `similar` (source lines 11-18): if either argument is Python
`None` the result is `0`, otherwise `SequenceMatcher(None, a, b).ratio()`. -/
def similar (a b : Option Str) : ℚ :=
  match a, b with
  | some a, some b => ratio a b
  | _, _ => 0

/-!
Python string helpers used by the parsers and the codec.
-/

/-- Whitespace stripped by Python `str.strip()` (the ASCII whitespace
characters; the source data never uses the exotic unicode space characters). -/
def isPySpace (c : Char) : Bool :=
  c = ' ' || c = '\t' || c = '\n' || c = '\r' || c = '\x0b' || c = '\x0c'

/-- Python `s.strip()`. -/
def pyStrip (s : Str) : Str :=
  ((s.dropWhile isPySpace).reverse.dropWhile isPySpace).reverse

/-- Python `s.strip('()')`: remove leading and trailing characters drawn from
the given set. -/
def pyStripChars (cs : List Char) (s : Str) : Str :=
  ((s.dropWhile (cs.contains ·)).reverse.dropWhile (cs.contains ·)).reverse

/-- Python `s.split(c)[0]`: the part of `s` before the first occurrence of
`c` (all of `s` when `c` does not occur). -/
def splitHeadOn (c : Char) (s : Str) : Str :=
  s.takeWhile (fun d => d ≠ c)

/-- Python `s.lower()` (the tags handled are ASCII). -/
def pyLower (s : Str) : Str :=
  s.map Char.toLower

/-- Split off the part before the first occurrence of `c`, together with the
remainder after it; `none` when `c` does not occur. -/
def splitFirst (c : Char) : Str → Option (Str × Str)
  | [] => none
  | d :: s =>
    if d = c then some ([], s)
    else match splitFirst c s with
         | some p => some (d :: p.1, p.2)
         | none => none

/-- Python `s.split(';', maxsplit)`: at most `maxsplit` splits, remainder kept
whole in the last field. -/
def pySplitSemi : Nat → Str → List Str
  | 0, s => [s]
  | maxsplit + 1, s =>
    match splitFirst ';' s with
    | none => [s]
    | some p => p.1 :: pySplitSemi maxsplit p.2

/-- Python `f.readlines()` on the file content: split after every `\n`,
keeping the newline at the end of each line; a last piece without a trailing
newline is kept as well. -/
def readlinesAux : Str → Str → List Str
  | acc, [] => if acc = [] then [] else [acc.reverse]
  | acc, c :: s =>
    if c = '\n' then (acc.reverse ++ ['\n']) :: readlinesAux [] s
    else readlinesAux (c :: acc) s

/-- All lines of a file content, `readlines` semantics. -/
def readlines (s : Str) : List Str :=
  readlinesAux [] s

/-!
Data model: `DictEntry` (source lines 31-50).  The `translations` dict only
ever holds the keys `'swe'`, `'nor'`, `'eng'` (section 3 of the spec fixes
this key set), so it is modelled by three optional fields; a key that is
absent from the dict is `none`.  A fresh `DictEntry()` has empty `word` and
`pos` and an empty translations dict, which is the default value here.
-/

/-- One dictionary record: headword, part of speech and the translations dict. -/
structure DictEntry where
  word : Str := []
  pos : Str := []
  swe : Option Str := none
  nor : Option Str := none
  eng : Option Str := none
deriving DecidableEq, Repr

/-- Embedding of `DictEntry.__eq__` (source lines 39-43) between two
`DictEntry` instances: both operands have a `word` attribute, so the
`try` body returns `self.word == obj.word` and the `except` arm is dead. -/
def dictEntryEq (x y : DictEntry) : Bool :=
  x.word == y.word

/-- The `swedish_parts_of_speech` table (source lines 53-63), in source order. -/
def swedish_parts_of_speech : List (Str × Str) :=
  [("subst".data, "Noun".data),
   ("verb".data, "Verb".data),
   ("konj".data, "Conjunction".data),
   ("adj".data, "Adjective".data),
   ("adj:attr".data, "Adjective".data),
   ("adj:pred".data, "Adjective".data),
   ("adj:attr/pred".data, "Adjective".data),
   ("adv".data, "Adverb".data),
   ("num".data, "Numeral".data)]

/-- Python `swedish_parts_of_speech.get(key, 'Other')`. -/
def posLookup (key : Str) : Str :=
  match swedish_parts_of_speech.find? (fun p => p.1 == key) with
  | some p => p.2
  | none => "Other".data

/-!
Flat-text codec (source lines 197-221).  `writeWordlistFile` produces the file
content; `readWordlistFile` consumes one.  A raised exception (IndexError when
a line splits into fewer than five fields) is modelled as `none`.
-/

/-- One output line of `writeWordlistFile` (source lines 200-201):
`'{};{};{};{};{}\n'.format(word, pos, get('swe', ''), get('nor', ''), get('eng', ''))`. -/
def formatEntry (e : DictEntry) : Str :=
  e.word ++ [';'] ++ e.pos ++ [';'] ++ e.swe.getD [] ++ [';'] ++
    e.nor.getD [] ++ [';'] ++ e.eng.getD [] ++ ['\n']

/-- Embedding of `writeWordlistFile` (source lines 197-201), as the file
content it produces. -/
def writeWordlistFile (word_list : List DictEntry) : Str :=
  (word_list.map formatEntry).flatten

/-- Per-line body of `readWordlistFile` (source lines 208-220): chop the final
character (`line[:-1]`), split on `;` with maxsplit 4, read the five fields
(IndexError, i.e. `none`, when fewer than five result), keys present only for
non-empty translation fields. -/
def parseLine (line : Str) : Option DictEntry :=
  match pySplitSemi 4 line.dropLast with
  | w :: p :: s :: n :: e :: _ =>
    some { word := w, pos := p,
           swe := if s = [] then none else some s,
           nor := if n = [] then none else some n,
           eng := if e = [] then none else some e }
  | _ => none

/-- The `for line in lines` loop of `readWordlistFile` (source lines 207-220):
skip falsy (empty) lines, append the parsed entry, abort with the exception
(`none`) when a line has too few fields. -/
def readLinesFold : List Str → List DictEntry → Option (List DictEntry)
  | [], acc => some acc
  | line :: rest, acc =>
    if line = [] then readLinesFold rest acc
    else match parseLine line with
         | some e => readLinesFold rest (acc ++ [e])
         | none => none

/-- Embedding of `readWordlistFile` (source lines 202-221) on a file content. -/
def readWordlistFile (file : Str) : Option (List DictEntry) :=
  readLinesFold (readlines file) []

/-!
The structured-document parsers.  Both are `html.parser.HTMLParser`
subclasses; they are embedded at the level of the parse events
(`handle_starttag`, `handle_data`, `handle_endtag`) delivered for the markup.
-/

/-- One HTML parse event. -/
inductive HtmlEvent where
  | starttag (tag : Str) (attrs : List (Str × Str))
  | data (s : Str)
  | endtag (tag : Str)
deriving DecidableEq, Repr

/-- Python `entries[-1] = f(entries[-1])` patterns: modify the last element,
IndexError (`none`) on an empty list. -/
def modifyLast (f : DictEntry → DictEntry) : List DictEntry → Option (List DictEntry)
  | [] => none
  | [e] => some [f e]
  | e :: rest => (modifyLast f rest).map (e :: ·)

/-- Mutable state of `PiteWordlistReader` (source lines 79-87). -/
structure PiteState where
  reading_entry : Bool := false
  entries : List DictEntry := []
  line_num : Nat := 0
  last_line : Str := []
deriving DecidableEq, Repr

/-- Embedding of `PiteWordlistReader.handle_starttag` (source lines 89-92). -/
def piteHandleStarttag (st : PiteState) (tag : Str) (attrs : List (Str × Str)) : PiteState :=
  if pyLower tag = "p".data ∧ ("class".data, "menu1".data) ∈ attrs then
    { st with reading_entry := true }
  else st

/-- Part-of-speech normalization on line 3 of an entry block (source lines
107-114): strip enclosing parentheses, check the 3-character proper-noun
marker `"ege"`, else look up the part before the first `)` in the Swedish
table, defaulting to `Other`. -/
def pitePosOf (data : Str) : Str :=
  if (pyStripChars ['(', ')'] (pyStrip data)).take 3 = "ege".data then "Proper noun".data
  else posLookup (splitHeadOn ')' (pyStripChars ['(', ')'] (pyStrip data)))

/-- Embedding of `PiteWordlistReader.handle_data` (source lines 94-123).
The `entries[-1]` accesses can raise IndexError when no entry has been
accumulated yet, hence the `Option`. -/
def piteHandleData (st : PiteState) (data : Str) : Option PiteState :=
  if st.reading_entry = false then some st
  else if pyStrip data = [] then some st
  else
    (if st.line_num + 1 = 2 then some (st.entries ++ [{ word := pyStrip data }])
     else if st.line_num + 1 = 3 then
       modifyLast (fun e => { e with pos := pitePosOf data }) st.entries
     else some st.entries).bind (fun l1 =>
      (if st.last_line = "Engl.".data then
         modifyLast (fun e => { e with eng := some (pyStrip (splitHeadOn '(' data)) }) l1
       else some l1).bind (fun l2 =>
        (if st.last_line = "Swed.".data then
           modifyLast (fun e => { e with swe := some (pyStrip (splitHeadOn '(' data)) }) l2
         else if st.last_line = "Norw.".data then
           modifyLast
             (fun e => { e with nor := some (pyStrip (splitHeadOn '(' (splitHeadOn '[' data))) }) l2
         else some l2).map (fun l3 =>
          { st with line_num := st.line_num + 1, entries := l3, last_line := pyStrip data })))

/-- Embedding of `PiteWordlistReader.handle_endtag` (source lines 125-128). -/
def piteHandleEndtag (st : PiteState) (tag : Str) : PiteState :=
  if pyLower tag = "p".data then { st with line_num := 0, reading_entry := false } else st

/-- Run the Pite reader's handlers over an event stream. -/
def piteProcess : List HtmlEvent → PiteState → Option PiteState
  | [], st => some st
  | ev :: evts, st =>
    match ev with
    | .starttag tag attrs => piteProcess evts (piteHandleStarttag st tag attrs)
    | .data s => (piteHandleData st s).bind (piteProcess evts)
    | .endtag tag => piteProcess evts (piteHandleEndtag st tag)

/-- Embedding of `PiteWordlistReader.feed` (source lines 130-134): run the
inherited feed (the handlers over the markup's events), then `entries.pop()`
— IndexError (`none`) on an empty accumulated list — and return the remaining
entries. -/
def piteFeed (evts : List HtmlEvent) : Option (List DictEntry) :=
  (piteProcess evts {}).bind (fun st =>
    if st.entries = [] then none else some st.entries.dropLast)

/-- Mutable state of `LuleDictReader` (source lines 136-146).  In the source,
`entries` is a class-level attribute that is only ever mutated in place
(`append`/`pop`), so it is shared between instances; `reading_entry`,
`td_num` and `spans_seen` are rebound through `self`, which creates instance
attributes whose start value is the class default.  A fresh instance therefore
starts from `luleInit prior` where `prior` is whatever the class-level list
already holds. -/
structure LuleState where
  reading_entry : Bool := false
  entries : List DictEntry := []
  td_num : Nat := 0
  spans_seen : Nat := 0
deriving DecidableEq, Repr

/-- State of a freshly constructed `LuleDictReader` when the class-level
`entries` list currently holds `prior`. -/
def luleInit (prior : List DictEntry) : LuleState :=
  { entries := prior }

/-- Embedding of `LuleDictReader.handle_starttag` (source lines 148-155). -/
def luleHandleStarttag (st : LuleState) (tag : Str) (attrs : List (Str × Str)) : LuleState :=
  let st :=
    if tag = "tr".data ∧
        (("class".data, "normalRow".data) ∈ attrs ∨ ("class".data, "alternateRow".data) ∈ attrs)
    then { st with reading_entry := true, entries := st.entries ++ [{}] } else st
  let st :=
    if tag = "td".data ∧ st.reading_entry then { st with td_num := st.td_num + 1 } else st
  if st.td_num ≠ 0 ∧ tag = "span".data then { st with spans_seen := st.spans_seen + 1 } else st

/-- Embedding of `LuleDictReader.handle_data` (source lines 157-165), with
IndexError on `entries[-1]` modelled as `none`. -/
def luleHandleData (st : LuleState) (data : Str) : Option LuleState :=
  if st.reading_entry = false then some st
  else
    let step1 : Option LuleState :=
      if st.td_num = 1 ∧ st.spans_seen = 1 then
        (modifyLast (fun e => { e with word := pyStrip (splitHeadOn ' ' data) }) st.entries).map
          (fun l => { st with entries := l })
      else some st
    step1.bind (fun st1 =>
      if st1.td_num = 2 ∧ st1.spans_seen = 1 then
        if data = "1".data then some { st1 with spans_seen := st1.spans_seen - 1 }
        else
          (modifyLast
            (fun e =>
              { e with nor := some (pyStrip (splitHeadOn '(' (splitHeadOn ';' (splitHeadOn ',' data)))) })
            st1.entries).map (fun l => { st1 with entries := l })
      else some st1)

/-- Embedding of `LuleDictReader.handle_endtag` (source lines 167-174): on
`</tr>` stop recording, reset the cell counter and discard a just-finished
entry whose `word` is empty; on `</td>` reset the marker counter. -/
def luleHandleEndtag (st : LuleState) (tag : Str) : LuleState :=
  let st :=
    if tag = "tr".data then
      let st := { st with reading_entry := false, td_num := 0 }
      match st.entries.getLast? with
      | some e => if e.word = [] then { st with entries := st.entries.dropLast } else st
      | none => st
    else st
  if tag = "td".data then { st with spans_seen := 0 } else st

/-- Run the Lule reader's handlers over an event stream. -/
def luleProcess : List HtmlEvent → LuleState → Option LuleState
  | [], st => some st
  | ev :: evts, st =>
    match ev with
    | .starttag tag attrs => luleProcess evts (luleHandleStarttag st tag attrs)
    | .data s => (luleHandleData st s).bind (luleProcess evts)
    | .endtag tag => luleProcess evts (luleHandleEndtag st tag)

/-!
Threshold matching engine (source lines 272-333).  State carried across
thresholds: the two cumulative lists `pite_matches_so_far` and
`north_matches_so_far` (reset once per run, line 272-273).  Per threshold and
per dialect: the matched list, the part-of-speech counter, the new-match
counter and the lines written to the report for newly discovered matches.
Thresholds are Python floats, modelled as rationals; a ZeroDivisionError in
the percentage computations is modelled as `none`.
-/

/-- The hard-coded threshold list (source line 275). -/
def threshholds : List ℚ :=
  [1, 95/100, 9/10, 8/10, 7/10, 6/10, 5/10]

/-- Python `entry in lst` on a list of `DictEntry`, which compares with
`DictEntry.__eq__` (word-only equality). -/
def listContainsEntry (l : List DictEntry) (e : DictEntry) : Bool :=
  l.any (fun x => dictEntryEq x e)

/-- The part-of-speech counter update (source lines 304-307): first occurrence
inserts the key with count 1 at the end (dicts preserve insertion order),
otherwise the count is incremented in place. -/
def posIncr (counter : List (Str × Nat)) (pos : Str) : List (Str × Nat) :=
  if counter.any (fun p => p.1 == pos) then
    counter.map (fun p => if p.1 == pos then (p.1, p.2 + 1) else p)
  else counter ++ [(pos, 1)]

/-- Loop state for the per-threshold Pite Saami pass: the matched word list
`psm_words_matched`, the cumulative `pite_matches_so_far`, the report lines
for new matches, `pite_new_counter` and `psm_pos_counter`. -/
structure PsmAcc where
  matched : List Str := []
  msf : List DictEntry := []
  newList : List DictEntry := []
  newCount : Nat := 0
  counter : List (Str × Nat) := []
deriving DecidableEq, Repr

/-- Body of the Pite Saami matching loop for one record (source lines
295-307): on `similar(entry.word, entry.translations.get('swe')) >=
similarity_threshold and entry.pos != 'Proper noun'`, append the word to the
matched list; if the entry is not yet in the cumulative list, append it there,
bump the new counter and write the report line; finally tally the part of
speech. -/
def psmStep (t : ℚ) (acc : PsmAcc) (entry : DictEntry) : PsmAcc :=
  if t ≤ similar (some entry.word) entry.swe ∧ ¬ entry.pos = "Proper noun".data then
    let acc1 := { acc with matched := acc.matched ++ [entry.word] }
    let acc2 :=
      if listContainsEntry acc1.msf entry = false then
        { acc1 with msf := acc1.msf ++ [entry], newCount := acc1.newCount + 1,
                    newList := acc1.newList ++ [entry] }
      else acc1
    { acc2 with counter := posIncr acc2.counter entry.pos }
  else acc

/-- The Pite Saami matching loop over all records at one threshold. -/
def psmLoop (t : ℚ) (entries : List DictEntry) (acc : PsmAcc) : PsmAcc :=
  entries.foldl (psmStep t) acc

/-- Loop state for the per-threshold North Saami pass; here the matched list
holds the entries themselves (source line 318), not just the words. -/
structure NsmAcc where
  matched : List DictEntry := []
  msf : List DictEntry := []
  newList : List DictEntry := []
  newCount : Nat := 0
  counter : List (Str × Nat) := []
deriving DecidableEq, Repr

/-- Body of the North Saami matching loop for one record (source lines
315-327), against the `'nor'` translation. -/
def nsmStep (t : ℚ) (acc : NsmAcc) (entry : DictEntry) : NsmAcc :=
  if t ≤ similar (some entry.word) entry.nor ∧ ¬ entry.pos = "Proper noun".data then
    let acc1 := { acc with matched := acc.matched ++ [entry] }
    let acc2 :=
      if listContainsEntry acc1.msf entry = false then
        { acc1 with msf := acc1.msf ++ [entry], newCount := acc1.newCount + 1,
                    newList := acc1.newList ++ [entry] }
      else acc1
    { acc2 with counter := posIncr acc2.counter entry.pos }
  else acc

/-- The North Saami matching loop over all records at one threshold. -/
def nsmLoop (t : ℚ) (entries : List DictEntry) (acc : NsmAcc) : NsmAcc :=
  entries.foldl (nsmStep t) acc

/-- The summary percentage `(matchedCount / total) * 100` (source lines
308-309 and 328-329); ZeroDivisionError (`none`) when the dialect's record
list is empty. -/
def percentOf (num denom : Nat) : Option ℚ :=
  if denom = 0 then none else some ((num : ℚ) / denom * 100)

/-- The per-part-of-speech percentage lines (source lines 310-311 and
330-332): each key's count and `(count / matchedCount) * 100`.  The loop
raises ZeroDivisionError exactly when the counter is non-empty while the
matched list is empty (an empty counter yields no line at all). -/
def posReport (counter : List (Str × Nat)) (matchedLen : Nat) :
    Option (List (Str × Nat × ℚ)) :=
  if ¬ counter = [] ∧ matchedLen = 0 then none
  else some (counter.map (fun p => (p.1, p.2, (p.2 : ℚ) / matchedLen * 100)))

/-- Everything the report records for one threshold. -/
structure ThresholdReport where
  psm_new : List DictEntry
  psm_matched : List Str
  psm_percent : ℚ
  pite_new_counter : Nat
  psm_pos_report : List (Str × Nat × ℚ)
  nsm_new : List DictEntry
  nsm_matched : List DictEntry
  nsm_percent : ℚ
  north_new_counter : Nat
  nsm_pos_report : List (Str × Nat × ℚ)
deriving DecidableEq, Repr

/-- One iteration of the outer threshold loop (source lines 283-333): reset
the per-threshold bookkeeping, run the Pite loop and report, then the North
loop and report, threading the two cumulative lists. -/
def runThreshold (psm_words nsm_words : List DictEntry) (t : ℚ)
    (msf : List DictEntry × List DictEntry) :
    Option (ThresholdReport × List DictEntry × List DictEntry) :=
  let pa := psmLoop t psm_words { msf := msf.1 }
  (percentOf pa.matched.length psm_words.length).bind (fun psmPct =>
    (posReport pa.counter pa.matched.length).bind (fun psmPos =>
      let na := nsmLoop t nsm_words { msf := msf.2 }
      (percentOf na.matched.length nsm_words.length).bind (fun nsmPct =>
        (posReport na.counter na.matched.length).map (fun nsmPos =>
          ({ psm_new := pa.newList, psm_matched := pa.matched, psm_percent := psmPct,
             pite_new_counter := pa.newCount, psm_pos_report := psmPos,
             nsm_new := na.newList, nsm_matched := na.matched, nsm_percent := nsmPct,
             north_new_counter := na.newCount, nsm_pos_report := nsmPos },
           pa.msf, na.msf)))))

/-- The full threshold run (source lines 283-333) from a given cumulative
state, producing the per-threshold reports and the final cumulative lists. -/
def runThresholds (psm_words nsm_words : List DictEntry) :
    List ℚ → List DictEntry × List DictEntry →
    Option (List ThresholdReport × (List DictEntry × List DictEntry))
  | [], msf => some ([], msf)
  | t :: ts, msf =>
    (runThreshold psm_words nsm_words t msf).bind (fun res =>
      (runThresholds psm_words nsm_words ts res.2).map (fun rest =>
        (res.1 :: rest.1, rest.2)))

/-- The matching-and-reporting pass as the program runs it (source lines
272-333): both cumulative lists start empty and the hard-coded threshold list
is traversed in order. -/
def runEngine (psm_words nsm_words : List DictEntry) :
    Option (List ThresholdReport × (List DictEntry × List DictEntry)) :=
  runThresholds psm_words nsm_words threshholds ([], [])

/-!
Concrete fixtures used by the counterexamples and witnesses below.
-/

/-- Decidable check that no field value of a record contains the character
`c` (an absent translation has no value and passes vacuously). -/
def fieldsFree (c : Char) (e : DictEntry) : Bool :=
  !(e.word.contains c) && !(e.pos.contains c) && !((e.swe.getD []).contains c) &&
  !((e.nor.getD []).contains c) && !((e.eng.getD []).contains c)

/-- The normalization performed by one codec round trip: a translation that is
present with an empty value is re-read as absent (its field serializes to an
empty field, and `readWordlistFile` leaves the key absent for empty fields). -/
def canonEntry (e : DictEntry) : DictEntry :=
  { word := e.word, pos := e.pos,
    swe := e.swe.bind (fun s => if s = [] then none else some s),
    nor := e.nor.bind (fun s => if s = [] then none else some s),
    eng := e.eng.bind (fun s => if s = [] then none else some s) }

/-- A record whose fields are `;`-free but whose word contains a newline. -/
def badEntry : DictEntry :=
  { word := ['a', '\n', 'b'] }

/-- Events of one `menu1` paragraph block of the Pite markup: an index line,
the headword line, the part-of-speech line. -/
def piteBlock (w p : Str) : List HtmlEvent :=
  [.starttag "p".data [("class".data, "menu1".data)],
   .data "1.".data, .data w, .data p, .endtag "p".data]

/-- A minimal two-entry fixture: two real entries plus the spurious trailing
block. -/
def piteFixture : List HtmlEvent :=
  piteBlock "alep".data "(subst)".data ++ piteBlock "bodne".data "(xyz)".data ++
    piteBlock "trail".data "(verb)".data

/-- The Pite reader state after traversing `piteFixture`. -/
def piteFixtureState : PiteState :=
  { reading_entry := false,
    entries := [{ word := "alep".data, pos := "Noun".data },
                { word := "bodne".data, pos := "Other".data },
                { word := "trail".data, pos := "Verb".data }],
    line_num := 0, last_line := "(verb)".data }

/-- Markup events on which the Pite traversal itself raises: a block whose
only line is the language label `Engl.`, followed by a block whose first line
triggers the translation capture while no entry has been accumulated. -/
def piteCrashEvents : List HtmlEvent :=
  [.starttag "p".data [("class".data, "menu1".data)], .data "Engl.".data, .endtag "p".data,
   .starttag "p".data [("class".data, "menu1".data)], .data "xx".data, .endtag "p".data]

/-- Events of one recognized Lule dictionary row. -/
def luleRow (w tr : Str) : List HtmlEvent :=
  [.starttag "tr".data [("class".data, "normalRow".data)],
   .starttag "td".data [], .starttag "span".data [], .data w, .endtag "span".data,
   .endtag "td".data,
   .starttag "td".data [], .starttag "span".data [], .data tr, .endtag "span".data,
   .endtag "td".data,
   .endtag "tr".data]

/-- A record left behind by a previous `LuleDictReader` instance. -/
def lulePriorEntry : DictEntry :=
  { word := "guolle".data, nor := some "fisk".data }

/-- Invariant of the Lule reader's scalar state: while recording, the current
row's entry is present, and a non-zero cell counter only occurs while
recording.  It holds for a fresh instance and is preserved by every handler. -/
def luleInv (st : LuleState) : Prop :=
  (st.reading_entry = true → ¬ st.entries = []) ∧ (¬ st.td_num = 0 → st.reading_entry = true)

/-- Pite Saami record used in the engine witness (no Swedish translation, so
its similarity score is 0 and it never matches). -/
def psmWitnessEntry : DictEntry :=
  { word := "ab".data, pos := "Noun".data }

/-- North Saami record used in the engine witness. -/
def nsmWitnessEntry : DictEntry :=
  { word := "cd".data, pos := "Noun".data }

/-- First string of the symmetry counterexample: `"aba"`. -/
def strAba : Str :=
  ['a', 'b', 'a']

/-- Second string of the symmetry counterexample: `"babba"`. -/
def strBabba : Str :=
  ['b', 'a', 'b', 'b', 'a']

/-- Row `r` of the self-comparison scan produces its diagonal cell exactly
when the character at position `r` survives the autojunk purge. -/
def diagOk (x : Str) (r : Nat) : Bool :=
  match x.get? r with
  | some c => !isPopular x c
  | none => false

/-- Length of the maximal streak of purge-surviving positions ending at `r`:
the value of the diagonal cell `(r, r)` in the self-comparison scan. -/
def runW (x : Str) : Nat → Nat
  | 0 => if diagOk x 0 then 1 else 0
  | r + 1 => if diagOk x (r + 1) then runW x r + 1 else 0

/-!
Theorems.  Each claim `Ci` of the specification is settled by one theorem
below (with a witness for theorems that carry hypotheses, and a counterexample
where the claim as stated fails).
-/

/-- Unfolding lemma for `ratio` when the sequences are not both empty. -/
theorem ratio_eq_div (a b : Str) (h : ¬ a.length + b.length = 0) :
    ratio a b =
      2 * (matchingSum a b (a.length + b.length + 1) 0 a.length 0 b.length : ℚ) /
        (a.length + b.length) := by
  simp only [ratio, if_neg h]

/-- C9: record equality is word-only: two `DictEntry` values compare equal
under `DictEntry.__eq__` exactly when their `word` fields are equal, whatever
their parts of speech and translation mappings are. -/
theorem dictEntryEq_iff_word (a b : DictEntry) :
    dictEntryEq a b = true ↔ a.word = b.word := by
  simp [dictEntryEq]

/-- C4: `similar` returns exactly `0` (and is a total function, so no
exception is raised) whenever either argument is absent; consequently a
record whose translations mapping lacks the comparison language is scored `0`
by the matcher. -/
theorem similar_absent_zero :
    (∀ b : Option Str, similar none b = 0) ∧
    (∀ a : Option Str, similar a none = 0) ∧
    (∀ e : DictEntry, e.swe = none → similar (some e.word) e.swe = 0) ∧
    (∀ e : DictEntry, e.nor = none → similar (some e.word) e.nor = 0) := by
  refine ⟨fun b => rfl, fun a => ?_, fun e h => by rw [h]; rfl, fun e h => by rw [h]; rfl⟩
  cases a <;> rfl

/-- Witness for C4 at concrete inputs. -/
theorem similar_absent_zero_witness :
    similar none (some "ab".data) = 0 ∧ similar (some "ab".data) none = 0 ∧
    similar (some psmWitnessEntry.word) psmWitnessEntry.swe = 0 ∧
    similar (some nsmWitnessEntry.word) nsmWitnessEntry.nor = 0 :=
  ⟨similar_absent_zero.1 _, similar_absent_zero.2.1 _,
   similar_absent_zero.2.2.1 psmWitnessEntry rfl,
   similar_absent_zero.2.2.2 nsmWitnessEntry rfl⟩

/-- A record whose part of speech is `Proper noun` leaves the Pite loop state
unchanged: the guard on source line 297 fails. -/
theorem psmStep_proper_noun (t : ℚ) (acc : PsmAcc) (e : DictEntry)
    (h : e.pos = "Proper noun".data) : psmStep t acc e = acc := by
  simp [psmStep, h]

/-- A record whose part of speech is `Proper noun` leaves the North loop state
unchanged: the guard on source line 317 fails. -/
theorem nsmStep_proper_noun (t : ℚ) (acc : NsmAcc) (e : DictEntry)
    (h : e.pos = "Proper noun".data) : nsmStep t acc e = acc := by
  simp [nsmStep, h]

/-- C6: at every threshold (including `0`) and from every loop state, both
matching loops compute exactly what they compute on the input with all
`Proper noun` records removed: such a record is never appended to the matched
list, never tallied in the part-of-speech counter, and never added to the
cumulative matches-so-far list or the new-match report, regardless of its
similarity score. -/
theorem proper_noun_never_matched (t : ℚ) (entries : List DictEntry)
    (pacc : PsmAcc) (nacc : NsmAcc) :
    psmLoop t (entries.filter (fun e => decide (¬ e.pos = "Proper noun".data))) pacc =
      psmLoop t entries pacc ∧
    nsmLoop t (entries.filter (fun e => decide (¬ e.pos = "Proper noun".data))) nacc =
      nsmLoop t entries nacc := by
  induction entries generalizing pacc nacc with
  | nil => exact ⟨rfl, rfl⟩
  | cons e rest ih =>
    by_cases h : e.pos = "Proper noun".data
    · simpa [psmLoop, nsmLoop, List.filter_cons, h, psmStep_proper_noun t pacc e h,
        nsmStep_proper_noun t nacc e h] using ih pacc nacc
    · simpa [psmLoop, nsmLoop, List.filter_cons, h] using ih (psmStep t pacc e) (nsmStep t nacc e)

/-- C3: with an empty dialect record list the percentage computation of the
threshold loop divides by zero, so the whole run aborts with the exception
(the spec requires an explicitly defined non-faulting result here). -/
theorem engine_zero_total_faults : runEngine [] [] = none := rfl

/-- Modifying the last element of a non-empty list succeeds and keeps the
list non-empty. -/
theorem modifyLast_of_ne_nil (f : DictEntry → DictEntry) (l : List DictEntry)
    (h : ¬ l = []) : ∃ l', modifyLast f l = some l' ∧ ¬ l' = [] := by
  induction l with
  | nil => exact absurd rfl h
  | cons e rest ih =>
    cases rest with
    | nil => exact ⟨[f e], rfl, by simp⟩
    | cons e2 r2 =>
      obtain ⟨l', hl', hne⟩ := ih (by simp)
      exact ⟨e :: l', by simp [modifyLast, hl'], by simp⟩

/-- Once an entry has been accumulated, `handle_data` cannot raise and the
accumulated list stays non-empty. -/
theorem piteHandleData_safe (st : PiteState) (s : Str) (h : ¬ st.entries = []) :
    ∃ st', piteHandleData st s = some st' ∧ ¬ st'.entries = [] := by
  unfold piteHandleData
  by_cases h0 : st.reading_entry = false
  · rw [if_pos h0]; exact ⟨st, rfl, h⟩
  rw [if_neg h0]
  by_cases hws : pyStrip s = []
  · rw [if_pos hws]; exact ⟨st, rfl, h⟩
  rw [if_neg hws]
  have step1 : ∃ l1, (if st.line_num + 1 = 2 then some (st.entries ++ [{ word := pyStrip s }])
      else if st.line_num + 1 = 3 then
        modifyLast (fun e => { e with pos := pitePosOf s }) st.entries
      else some st.entries) = some l1 ∧ ¬ l1 = [] := by
    by_cases h2 : st.line_num + 1 = 2
    · exact ⟨_, by rw [if_pos h2], by simp⟩
    by_cases h3 : st.line_num + 1 = 3
    · obtain ⟨l', hl', hne⟩ := modifyLast_of_ne_nil _ _ h
      exact ⟨l', by rw [if_neg h2, if_pos h3]; exact hl', hne⟩
    · exact ⟨st.entries, by rw [if_neg h2, if_neg h3], h⟩
  obtain ⟨l1, hl1, hne1⟩ := step1
  rw [hl1, Option.some_bind]
  have step2 : ∃ l2, (if st.last_line = "Engl.".data then
      modifyLast (fun e => { e with eng := some (pyStrip (splitHeadOn '(' s)) }) l1
      else some l1) = some l2 ∧ ¬ l2 = [] := by
    by_cases hE : st.last_line = "Engl.".data
    · obtain ⟨l', hl', hne⟩ := modifyLast_of_ne_nil _ _ hne1
      exact ⟨l', by rw [if_pos hE]; exact hl', hne⟩
    · exact ⟨l1, by rw [if_neg hE], hne1⟩
  obtain ⟨l2, hl2, hne2⟩ := step2
  rw [hl2, Option.some_bind]
  have step3 : ∃ l3, (if st.last_line = "Swed.".data then
      modifyLast (fun e => { e with swe := some (pyStrip (splitHeadOn '(' s)) }) l2
      else if st.last_line = "Norw.".data then
        modifyLast (fun e => { e with nor := some (pyStrip (splitHeadOn '(' (splitHeadOn '[' s))) }) l2
      else some l2) = some l3 ∧ ¬ l3 = [] := by
    by_cases hS : st.last_line = "Swed.".data
    · obtain ⟨l', hl', hne⟩ := modifyLast_of_ne_nil _ _ hne2
      exact ⟨l', by rw [if_pos hS]; exact hl', hne⟩
    by_cases hN : st.last_line = "Norw.".data
    · obtain ⟨l', hl', hne⟩ := modifyLast_of_ne_nil _ _ hne2
      exact ⟨l', by rw [if_neg hS, if_pos hN]; exact hl', hne⟩
    · exact ⟨l2, by rw [if_neg hS, if_neg hN], hne2⟩
  obtain ⟨l3, hl3, hne3⟩ := step3
  rw [hl3]
  exact ⟨_, rfl, by simpa using hne3⟩

/-- The start-tag handler of the Pite reader never touches the entry list. -/
theorem piteHandleStarttag_entries (st : PiteState) (tag : Str)
    (attrs : List (Str × Str)) : (piteHandleStarttag st tag attrs).entries = st.entries := by
  unfold piteHandleStarttag
  split <;> rfl

/-- The end-tag handler of the Pite reader never touches the entry list. -/
theorem piteHandleEndtag_entries (st : PiteState) (tag : Str) :
    (piteHandleEndtag st tag).entries = st.entries := by
  unfold piteHandleEndtag
  split <;> rfl

/-- Once an entry has been accumulated, the rest of the traversal cannot raise
and the accumulated list stays non-empty. -/
theorem piteProcess_safe (evts : List HtmlEvent) (st : PiteState)
    (h : ¬ st.entries = []) :
    ∃ st', piteProcess evts st = some st' ∧ ¬ st'.entries = [] := by
  induction evts generalizing st with
  | nil => exact ⟨st, rfl, h⟩
  | cons ev rest ih =>
    cases ev with
    | starttag tag attrs =>
      exact ih (piteHandleStarttag st tag attrs) (by rw [piteHandleStarttag_entries]; exact h)
    | data s =>
      obtain ⟨st1, h1, hne1⟩ := piteHandleData_safe st s h
      obtain ⟨st', h2, hne'⟩ := ih st1 hne1
      exact ⟨st', by simp [piteProcess, h1, h2], hne'⟩
    | endtag tag =>
      exact ih (piteHandleEndtag st tag) (by rw [piteHandleEndtag_entries]; exact h)

/-- Traversing a concatenation of event streams is the composition of the
traversals. -/
theorem piteProcess_append (l1 l2 : List HtmlEvent) (st : PiteState) :
    piteProcess (l1 ++ l2) st = (piteProcess l1 st).bind (piteProcess l2) := by
  induction l1 generalizing st with
  | nil => rfl
  | cons ev rest ih =>
    cases ev with
    | starttag tag attrs => simpa [piteProcess] using ih (piteHandleStarttag st tag attrs)
    | data s =>
      simp only [List.cons_append, piteProcess]
      cases piteHandleData st s with
      | none => rfl
      | some st1 => simpa using ih st1
    | endtag tag => simpa [piteProcess] using ih (piteHandleEndtag st tag)

/-- C7: `PiteWordlistReader.feed` returns the accumulated record sequence with
exactly the last accumulated record removed: whenever the traversal of the
markup accumulates a non-empty record sequence, `feed` returns it without its
last element, in order. -/
theorem piteFeed_drops_last (evts : List HtmlEvent) (st : PiteState)
    (h : piteProcess evts {} = some st) (hne : ¬ st.entries = []) :
    piteFeed evts = some st.entries.dropLast := by
  simp [piteFeed, h, hne]

/-- Witness for C7: the minimal two-entry fixture (two real entries plus the
spurious trailing block) accumulates three records and `feed` returns exactly
the two preceding entries, their parts of speech normalized via the Swedish
table (`subst` to `Noun`, unknown token to `Other`). -/
theorem piteFeed_drops_last_witness :
    piteProcess piteFixture {} = some piteFixtureState ∧
    ¬ piteFixtureState.entries = [] ∧
    piteFeed piteFixture =
      some [{ word := "alep".data, pos := "Noun".data },
            { word := "bodne".data, pos := "Other".data }] := by
  have h : piteProcess piteFixture {} = some piteFixtureState := by decide
  refine ⟨h, by decide, ?_⟩
  rw [piteFeed_drops_last piteFixture piteFixtureState h (by decide)]
  decide

/-- C8 counterexample: parsing can be fatal.  On markup with no target block
at all, `feed` raises (the unconditional `entries.pop()` on an empty list),
and on `piteCrashEvents` the traversal itself raises inside `handle_data`
(translation capture with no accumulated entry). -/
theorem piteFeed_raises_counterexample :
    piteFeed [] = none ∧ piteProcess piteCrashEvents {} = none := by decide

/-- C8 amended: parse anomalies after the first accumulated record are never
fatal: if some prefix of the markup's events leaves the reader with a
non-empty accumulated list, then `feed` of the whole markup returns normally,
whatever events follow. -/
theorem piteFeed_safe_after_record (evts1 evts2 : List HtmlEvent) (st : PiteState)
    (h : piteProcess evts1 {} = some st) (hne : ¬ st.entries = []) :
    ∃ l, piteFeed (evts1 ++ evts2) = some l := by
  obtain ⟨st', h2, hne'⟩ := piteProcess_safe evts2 st hne
  exact ⟨st'.entries.dropLast, by simp [piteFeed, piteProcess_append, h, h2, hne']⟩

/-- Witness for the amended C8: after one complete entry block, even the
events that crash a fresh reader are tolerated and `feed` returns normally. -/
theorem piteFeed_safe_after_record_witness :
    ∃ l, piteFeed (piteBlock "alep".data "(subst)".data ++ piteCrashEvents) = some l := by
  apply piteFeed_safe_after_record _ _
    { reading_entry := false,
      entries := [{ word := "alep".data, pos := "Noun".data }],
      line_num := 0, last_line := "(subst)".data }
  · decide
  · decide

/-- Splitting at the first `c` of `w ++ c :: r` when `w` is `c`-free. -/
theorem splitFirst_append (c : Char) (w r : Str) (hw : ¬ c ∈ w) :
    splitFirst c (w ++ c :: r) = some (w, r) := by
  induction w with
  | nil => simp [splitFirst]
  | cons d w ih =>
    have hd : ¬ d = c := fun e => hw (by simp [e])
    have hw' : ¬ c ∈ w := fun m => hw (by simp [m])
    simp [splitFirst, hd, ih hw']

/-- Splitting a five-field line on `;` with maxsplit 4 recovers the fields
when the first four are separator-free. -/
theorem pySplitSemi_cons (m : Nat) (w r : Str) (hw : ¬ ';' ∈ w) :
    pySplitSemi (m + 1) (w ++ ';' :: r) = w :: pySplitSemi m r := by
  have hu : pySplitSemi (m + 1) (w ++ ';' :: r) =
      match splitFirst ';' (w ++ ';' :: r) with
      | none => [w ++ ';' :: r]
      | some p => p.1 :: pySplitSemi m p.2 := rfl
  rw [hu, splitFirst_append ';' w r hw]

/-- Splitting a five-field line on `;` with maxsplit 4 recovers the fields
when the first four are separator-free. -/
theorem pySplitSemi_fields (w p s n g : Str)
    (hw : ¬ ';' ∈ w) (hp : ¬ ';' ∈ p) (hs : ¬ ';' ∈ s) (hn : ¬ ';' ∈ n) :
    pySplitSemi 4 (w ++ ';' :: (p ++ ';' :: (s ++ ';' :: (n ++ ';' :: g)))) =
      [w, p, s, n, g] := by
  rw [show (4 : Nat) = 3 + 1 from rfl, pySplitSemi_cons _ _ _ hw]
  rw [show (3 : Nat) = 2 + 1 from rfl, pySplitSemi_cons _ _ _ hp]
  rw [show (2 : Nat) = 1 + 1 from rfl, pySplitSemi_cons _ _ _ hs]
  rw [show (1 : Nat) = 0 + 1 from rfl, pySplitSemi_cons _ _ _ hn]
  rfl

/-- The `readlines` accumulator lemma: a newline-free body produces one line. -/
theorem readlinesAux_line (body : Str) (hb : ¬ '\n' ∈ body) :
    ∀ (rest acc : Str), readlinesAux acc (body ++ '\n' :: rest) =
      (acc.reverse ++ body ++ ['\n']) :: readlinesAux [] rest := by
  induction body with
  | nil => intro rest acc; simp [readlinesAux]
  | cons c body ih =>
    intro rest acc
    have hc : ¬ c = '\n' := fun e => hb (by simp [e])
    have hb' : ¬ '\n' ∈ body := fun m => hb (by simp [m])
    simp [readlinesAux, hc, ih hb' rest (c :: acc)]

/-- One line of `readlines` for a newline-free body. -/
theorem readlines_line (body rest : Str) (hb : ¬ '\n' ∈ body) :
    readlines (body ++ '\n' :: rest) = (body ++ ['\n']) :: readlines rest := by
  simpa [readlines] using readlinesAux_line body hb rest []

/-- Unpacking `fieldsFree` into memberships. -/
theorem fieldsFree_iff (c : Char) (e : DictEntry) :
    fieldsFree c e = true ↔
      ¬ c ∈ e.word ∧ ¬ c ∈ e.pos ∧ ¬ c ∈ e.swe.getD [] ∧ ¬ c ∈ e.nor.getD [] ∧
      ¬ c ∈ e.eng.getD [] := by
  simp [fieldsFree, and_assoc]

/-- Parsing one formatted line recovers the record up to the
empty-translation normalization. -/
theorem parseLine_formatEntry (e : DictEntry) (h : fieldsFree ';' e = true) :
    parseLine ((e.word ++ ';' :: (e.pos ++ ';' :: (e.swe.getD [] ++ ';' ::
      (e.nor.getD [] ++ ';' :: e.eng.getD [])))) ++ ['\n']) = some (canonEntry e) := by
  obtain ⟨h1, h2, h3, h4, h5⟩ := (fieldsFree_iff ';' e).mp h
  unfold parseLine
  rw [List.dropLast_concat, pySplitSemi_fields _ _ _ _ _ h1 h2 h3 h4]
  cases hs : e.swe <;> cases hn : e.nor <;> cases hg : e.eng <;>
    simp [canonEntry, hs, hn, hg]

/-- Round-trip helper: folding the decode loop over the encoded file appends
the canonized records to the accumulator. -/
theorem codec_roundtrip_aux (l : List DictEntry)
    (h : ∀ e ∈ l, fieldsFree ';' e = true ∧ fieldsFree '\n' e = true) :
    ∀ acc : List DictEntry,
      readLinesFold (readlines (writeWordlistFile l)) acc = some (acc ++ l.map canonEntry) := by
  induction l with
  | nil => intro acc; simp [writeWordlistFile, readlines, readlinesAux, readLinesFold]
  | cons e rest ih =>
    intro acc
    obtain ⟨hsemi, hnl⟩ := h e (by simp)
    obtain ⟨n1, n2, n3, n4, n5⟩ := (fieldsFree_iff '\n' e).mp hnl
    have hbody : ¬ '\n' ∈ e.word ++ ';' :: (e.pos ++ ';' :: (e.swe.getD [] ++ ';' ::
        (e.nor.getD [] ++ ';' :: e.eng.getD []))) := by
      intro hm
      simp only [List.mem_append, List.mem_cons] at hm
      have : ¬ ('\n' : Char) = ';' := by decide
      tauto
    have hw : writeWordlistFile (e :: rest) =
        (e.word ++ ';' :: (e.pos ++ ';' :: (e.swe.getD [] ++ ';' ::
          (e.nor.getD [] ++ ';' :: e.eng.getD [])))) ++ '\n' :: writeWordlistFile rest := by
      simp [writeWordlistFile, formatEntry]
    rw [hw, readlines_line _ _ hbody]
    have hne : ¬ ((e.word ++ ';' :: (e.pos ++ ';' :: (e.swe.getD [] ++ ';' ::
        (e.nor.getD [] ++ ';' :: e.eng.getD [])))) ++ ['\n']) = [] := by simp
    rw [readLinesFold, if_neg hne, parseLine_formatEntry e hsemi]
    show readLinesFold (readlines (writeWordlistFile rest)) (acc ++ [canonEntry e]) =
      some (acc ++ List.map canonEntry (e :: rest))
    rw [ih (fun x hx => h x (by simp [hx])) (acc ++ [canonEntry e])]
    simp

/-- C1 counterexample: a record whose fields contain no `;` but whose word
contains a newline breaks the round trip: decoding the encoded singleton list
raises (the newline splits the record across two malformed lines), instead of
returning the original record. -/
theorem codec_newline_counterexample :
    fieldsFree ';' badEntry = true ∧
    readWordlistFile (writeWordlistFile [badEntry]) = none := by decide

/-- C1 amended: for record sequences in which no field value contains the
separator `;` or a newline, decoding the encoded sequence succeeds and yields
the records field-wise, where a translation key holding an empty value
decodes to an absent key (and all other fields are recovered exactly). -/
theorem codec_roundtrip (l : List DictEntry)
    (h : ∀ e ∈ l, fieldsFree ';' e = true ∧ fieldsFree '\n' e = true) :
    readWordlistFile (writeWordlistFile l) = some (l.map canonEntry) := by
  simpa [readWordlistFile] using codec_roundtrip_aux l h []

/-- One unfolding step of the Pite Saami matching loop. -/
theorem psmLoop_cons (t : ℚ) (e : DictEntry) (rest : List DictEntry) (acc : PsmAcc) :
    psmLoop t (e :: rest) acc = psmLoop t rest (psmStep t acc e) := rfl

/-- One unfolding step of the North Saami matching loop. -/
theorem nsmLoop_cons (t : ℚ) (e : DictEntry) (rest : List DictEntry) (acc : NsmAcc) :
    nsmLoop t (e :: rest) acc = nsmLoop t rest (nsmStep t acc e) := rfl

/-- One record either leaves the cumulative list and the new-match report
unchanged, or appends itself to both, and it is appended only when no record
with its word is already cumulative. -/
theorem psmStep_cases (t : ℚ) (acc : PsmAcc) (e : DictEntry) :
    ((psmStep t acc e).msf = acc.msf ∧ (psmStep t acc e).newList = acc.newList) ∨
    ((psmStep t acc e).msf = acc.msf ++ [e] ∧ (psmStep t acc e).newList = acc.newList ++ [e] ∧
      ∀ x ∈ acc.msf, ¬ x.word = e.word) := by
  unfold psmStep
  split
  · dsimp only
    split
    case isTrue hc =>
      right
      refine ⟨rfl, rfl, ?_⟩
      simpa [listContainsEntry, dictEntryEq, List.any_eq_false] using hc
    case isFalse hc => exact Or.inl ⟨rfl, rfl⟩
  · exact Or.inl ⟨rfl, rfl⟩

/-- North Saami analogue of `psmStep_cases`. -/
theorem nsmStep_cases (t : ℚ) (acc : NsmAcc) (e : DictEntry) :
    ((nsmStep t acc e).msf = acc.msf ∧ (nsmStep t acc e).newList = acc.newList) ∨
    ((nsmStep t acc e).msf = acc.msf ++ [e] ∧ (nsmStep t acc e).newList = acc.newList ++ [e] ∧
      ∀ x ∈ acc.msf, ¬ x.word = e.word) := by
  unfold nsmStep
  split
  · dsimp only
    split
    case isTrue hc =>
      right
      refine ⟨rfl, rfl, ?_⟩
      simpa [listContainsEntry, dictEntryEq, List.any_eq_false] using hc
    case isFalse hc => exact Or.inl ⟨rfl, rfl⟩
  · exact Or.inl ⟨rfl, rfl⟩

/-- The Pite loop only appends to the cumulative list, appends the same
records to the new-match report, and preserves distinctness of the cumulative
words. -/
theorem psmLoop_msf (t : ℚ) (entries : List DictEntry) (acc : PsmAcc) :
    ∃ d, (psmLoop t entries acc).msf = acc.msf ++ d ∧
      (psmLoop t entries acc).newList = acc.newList ++ d ∧
      ((acc.msf.map DictEntry.word).Nodup → ((psmLoop t entries acc).msf.map DictEntry.word).Nodup) := by
  induction entries generalizing acc with
  | nil => exact ⟨[], by simp [psmLoop], by simp [psmLoop], fun h => h⟩
  | cons e rest ih =>
    rw [psmLoop_cons]
    obtain ⟨d, h1, h2, h3⟩ := ih (psmStep t acc e)
    rcases psmStep_cases t acc e with ⟨hm, hn⟩ | ⟨hm, hn, hfresh⟩
    · exact ⟨d, by rw [h1, hm], by rw [h2, hn], fun hd => h3 (by rw [hm]; exact hd)⟩
    · refine ⟨e :: d, by rw [h1, hm]; simp, by rw [h2, hn]; simp, fun hd => h3 ?_⟩
      rw [hm, List.map_append, List.nodup_append]
      refine ⟨hd, by simp, ?_⟩
      intro w hw hw2
      simp only [List.map_cons, List.map_nil, List.mem_singleton] at hw2
      obtain ⟨x, hx, hxw⟩ := List.mem_map.mp hw
      exact hfresh x hx (by rw [hxw, hw2])

/-- North Saami analogue of `psmLoop_msf`. -/
theorem nsmLoop_msf (t : ℚ) (entries : List DictEntry) (acc : NsmAcc) :
    ∃ d, (nsmLoop t entries acc).msf = acc.msf ++ d ∧
      (nsmLoop t entries acc).newList = acc.newList ++ d ∧
      ((acc.msf.map DictEntry.word).Nodup → ((nsmLoop t entries acc).msf.map DictEntry.word).Nodup) := by
  induction entries generalizing acc with
  | nil => exact ⟨[], by simp [nsmLoop], by simp [nsmLoop], fun h => h⟩
  | cons e rest ih =>
    rw [nsmLoop_cons]
    obtain ⟨d, h1, h2, h3⟩ := ih (nsmStep t acc e)
    rcases nsmStep_cases t acc e with ⟨hm, hn⟩ | ⟨hm, hn, hfresh⟩
    · exact ⟨d, by rw [h1, hm], by rw [h2, hn], fun hd => h3 (by rw [hm]; exact hd)⟩
    · refine ⟨e :: d, by rw [h1, hm]; simp, by rw [h2, hn]; simp, fun hd => h3 ?_⟩
      rw [hm, List.map_append, List.nodup_append]
      refine ⟨hd, by simp, ?_⟩
      intro w hw hw2
      simp only [List.map_cons, List.map_nil, List.mem_singleton] at hw2
      obtain ⟨x, hx, hxw⟩ := List.mem_map.mp hw
      exact hfresh x hx (by rw [hxw, hw2])

/-- Destructuring one threshold step: the new cumulative lists extend the old
ones by exactly the reported new matches, and cumulative word distinctness is
preserved. -/
theorem runThreshold_spec (psm nsm : List DictEntry) (t : ℚ)
    (msf : List DictEntry × List DictEntry) (rep : ThresholdReport) (m1 m2 : List DictEntry)
    (h : runThreshold psm nsm t msf = some (rep, m1, m2)) :
    m1 = msf.1 ++ rep.psm_new ∧ m2 = msf.2 ++ rep.nsm_new ∧
    ((msf.1.map DictEntry.word).Nodup → (m1.map DictEntry.word).Nodup) ∧
    ((msf.2.map DictEntry.word).Nodup → (m2.map DictEntry.word).Nodup) := by
  unfold runThreshold at h
  simp only [Option.bind_eq_some, Option.map_eq_some'] at h
  obtain ⟨p1, hp1, p2, hp2, p3, hp3, ⟨p4, hp4, hres⟩⟩ := h
  obtain ⟨d1, hd1, hn1, hnd1⟩ := psmLoop_msf t psm { msf := msf.1 }
  obtain ⟨d2, hd2, hn2, hnd2⟩ := nsmLoop_msf t nsm { msf := msf.2 }
  simp only [Prod.mk.injEq] at hres
  obtain ⟨hrep, hm1, hm2⟩ := hres
  subst hm1 hm2
  rw [← hrep]
  dsimp only at hd1 hn1 hd2 hn2 hnd1 hnd2 ⊢
  rw [hd1, hd2, hn1, hn2]
  refine ⟨by simp, by simp, ?_, ?_⟩
  · intro hnd
    have := hnd1 hnd
    rwa [hd1] at this
  · intro hnd
    have := hnd2 hnd
    rwa [hd2] at this

/-- Across a full run, each cumulative list is the initial one extended by the
concatenation of the per-threshold new-match reports, and distinctness of the
cumulative words is preserved. -/
theorem runThresholds_spec (psm nsm : List DictEntry) (ths : List ℚ) :
    ∀ (msf : List DictEntry × List DictEntry)
      (res : List ThresholdReport × (List DictEntry × List DictEntry)),
      runThresholds psm nsm ths msf = some res →
      (res.2.1 = msf.1 ++ (res.1.map ThresholdReport.psm_new).flatten ∧
       res.2.2 = msf.2 ++ (res.1.map ThresholdReport.nsm_new).flatten ∧
       ((msf.1.map DictEntry.word).Nodup → (res.2.1.map DictEntry.word).Nodup) ∧
       ((msf.2.map DictEntry.word).Nodup → (res.2.2.map DictEntry.word).Nodup)) := by
  induction ths with
  | nil =>
    intro msf res h
    have he : (([], msf) : List ThresholdReport × (List DictEntry × List DictEntry)) = res := by
      injection h
    subst he
    simp
  | cons t ts ih =>
    intro msf res h
    rw [runThresholds] at h
    simp only [Option.bind_eq_some, Option.map_eq_some'] at h
    obtain ⟨⟨rep, m12⟩, hstep, rest, hrest, hres⟩ := h
    obtain ⟨e1, e2, p1, p2⟩ := runThreshold_spec psm nsm t msf rep m12.1 m12.2 hstep
    obtain ⟨f1, f2, q1, q2⟩ := ih m12 rest hrest
    subst hres
    refine ⟨?_, ?_, ?_, ?_⟩
    · simpa [e1, List.append_assoc] using f1
    · simpa [e2, List.append_assoc] using f2
    · intro hnd; exact q1 (p1 hnd)
    · intro hnd; exact q2 (p2 hnd)

/-- C2: over a run of the threshold matching engine, each cumulative
matches-so-far list only ever grows (each threshold step extends it, by
exactly the records of that threshold's new-match report, so its size is
non-decreasing), and across all thresholds of a run started with empty
cumulative state, any given word is written to the new-match reports at most
once (the concatenated reports hold pairwise distinct words, for both
dialects). -/
theorem engine_monotone_new_once :
    (∀ (psm nsm : List DictEntry) (t : ℚ) (msf : List DictEntry × List DictEntry)
       (rep : ThresholdReport) (m1 m2 : List DictEntry),
       runThreshold psm nsm t msf = some (rep, m1, m2) →
       m1 = msf.1 ++ rep.psm_new ∧ m2 = msf.2 ++ rep.nsm_new ∧
       msf.1.length ≤ m1.length ∧ msf.2.length ≤ m2.length) ∧
    (∀ (psm nsm : List DictEntry) (ths : List ℚ)
       (res : List ThresholdReport × (List DictEntry × List DictEntry)),
       runThresholds psm nsm ths ([], []) = some res →
       ((res.1.map ThresholdReport.psm_new).flatten.map DictEntry.word).Nodup ∧
       ((res.1.map ThresholdReport.nsm_new).flatten.map DictEntry.word).Nodup) := by
  constructor
  · intro psm nsm t msf rep m1 m2 h
    obtain ⟨e1, e2, _, _⟩ := runThreshold_spec psm nsm t msf rep m1 m2 h
    exact ⟨e1, e2, by rw [e1]; simp, by rw [e2]; simp⟩
  · intro psm nsm ths res h
    obtain ⟨f1, f2, q1, q2⟩ := runThresholds_spec psm nsm ths ([], []) res h
    have n1 := q1 (by simp)
    have n2 := q2 (by simp)
    rw [f1] at n1
    rw [f2] at n2
    exact ⟨by simpa using n1, by simpa using n2⟩

/-- The summary percentage is defined whenever the dialect has records. -/
theorem percentOf_pos (num denom : Nat) (h : ¬ denom = 0) :
    percentOf num denom = some ((num : ℚ) / denom * 100) := by
  unfold percentOf
  rw [if_neg h]

/-- The part-of-speech report is defined whenever a non-empty counter comes
with a non-zero matched count. -/
theorem posReport_some (counter : List (Str × Nat)) (len : Nat)
    (h : ¬ counter = [] → ¬ len = 0) :
    posReport counter len =
      some (counter.map (fun p => (p.1, p.2, (p.2 : ℚ) / len * 100))) := by
  unfold posReport
  rw [if_neg (fun hcl => h hcl.1 hcl.2)]

/-- The Pite counter is empty whenever the matched list is empty. -/
theorem psmLoop_counter (t : ℚ) (entries : List DictEntry) (acc : PsmAcc)
    (h : acc.matched = [] → acc.counter = []) :
    (psmLoop t entries acc).matched = [] → (psmLoop t entries acc).counter = [] := by
  induction entries generalizing acc with
  | nil => exact h
  | cons e rest ih =>
    rw [psmLoop_cons]
    apply ih
    unfold psmStep
    split
    · dsimp only
      split <;> (intro hm; exact absurd hm (by simp))
    · exact h

/-- The North counter is empty whenever the matched list is empty. -/
theorem nsmLoop_counter (t : ℚ) (entries : List DictEntry) (acc : NsmAcc)
    (h : acc.matched = [] → acc.counter = []) :
    (nsmLoop t entries acc).matched = [] → (nsmLoop t entries acc).counter = [] := by
  induction entries generalizing acc with
  | nil => exact h
  | cons e rest ih =>
    rw [nsmLoop_cons]
    apply ih
    unfold nsmStep
    split
    · dsimp only
      split <;> (intro hm; exact absurd hm (by simp))
    · exact h

/-- One threshold step never raises when both dialects have records: the
summary division is defined, and the per-part-of-speech division is defined
because a non-empty counter forces a non-empty matched list. -/
theorem runThreshold_total (psm nsm : List DictEntry) (t : ℚ)
    (msf : List DictEntry × List DictEntry) (hp : ¬ psm = []) (hn : ¬ nsm = []) :
    ∃ rep m1 m2, runThreshold psm nsm t msf = some (rep, m1, m2) := by
  have hp' : ¬ psm.length = 0 := by simpa [List.length_eq_zero] using hp
  have hn' : ¬ nsm.length = 0 := by simpa [List.length_eq_zero] using hn
  have hs : (runThreshold psm nsm t msf).isSome = true := by
    unfold runThreshold
    dsimp only
    rw [percentOf_pos _ _ hp', Option.some_bind,
      posReport_some _ _ (fun hc hl => hc (psmLoop_counter t psm { msf := msf.1 } (fun _ => rfl)
        (List.length_eq_zero.mp hl))), Option.some_bind,
      percentOf_pos _ _ hn', Option.some_bind,
      posReport_some _ _ (fun hc hl => hc (nsmLoop_counter t nsm { msf := msf.2 } (fun _ => rfl)
        (List.length_eq_zero.mp hl)))]
    rfl
  obtain ⟨⟨rep, m1, m2⟩, hx⟩ := Option.isSome_iff_exists.mp hs
  exact ⟨rep, m1, m2, hx⟩

/-- A full run never raises when both dialects have records. -/
theorem runThresholds_total (psm nsm : List DictEntry) (hp : ¬ psm = []) (hn : ¬ nsm = [])
    (ths : List ℚ) :
    ∀ msf, ∃ res, runThresholds psm nsm ths msf = some res := by
  induction ths with
  | nil => exact fun msf => ⟨([], msf), rfl⟩
  | cons t ts ih =>
    intro msf
    obtain ⟨rep, m1, m2, h⟩ := runThreshold_total psm nsm t msf hp hn
    obtain ⟨rest, hrest⟩ := ih (m1, m2)
    exact ⟨(rep :: rest.1, rest.2), by rw [runThresholds]; simp [h, hrest]⟩

/-- Witness for C2: a concrete one-record-per-dialect run, at one threshold
and over the program's full threshold list. -/
theorem engine_monotone_new_once_witness :
    (∃ rep m1 m2,
       runThreshold [psmWitnessEntry] [nsmWitnessEntry] 1 ([], []) = some (rep, m1, m2) ∧
       m1 = [] ++ rep.psm_new ∧ m2 = [] ++ rep.nsm_new ∧ m1.length ≥ 0) ∧
    (∃ res, runThresholds [psmWitnessEntry] [nsmWitnessEntry] threshholds ([], []) = some res ∧
       ((res.1.map ThresholdReport.psm_new).flatten.map DictEntry.word).Nodup ∧
       ((res.1.map ThresholdReport.nsm_new).flatten.map DictEntry.word).Nodup) := by
  constructor
  · obtain ⟨rep, m1, m2, h⟩ :=
      runThreshold_total [psmWitnessEntry] [nsmWitnessEntry] 1 ([], []) (by decide) (by decide)
    obtain ⟨e1, e2, l1, l2⟩ := engine_monotone_new_once.1 _ _ _ _ _ _ _ h
    exact ⟨rep, m1, m2, h, e1, e2, Nat.zero_le _⟩
  · obtain ⟨res, h⟩ :=
      runThresholds_total [psmWitnessEntry] [nsmWitnessEntry] (by decide) (by decide)
        threshholds ([], [])
    exact ⟨res, h, engine_monotone_new_once.2 _ _ _ _ h⟩

/-- A successful `modifyLast` yields a non-empty list. -/
theorem modifyLast_some_ne_nil (f : DictEntry → DictEntry) (l l' : List DictEntry)
    (h : modifyLast f l = some l') : ¬ l' = [] := by
  induction l generalizing l' with
  | nil => exact absurd h (by simp [modifyLast])
  | cons e rest ih =>
    cases rest with
    | nil =>
      have : [f e] = l' := by injection h
      subst this; simp
    | cons x xs =>
      have he : (modifyLast f (x :: xs)).map (e :: ·) = some l' := h
      obtain ⟨a, _, ha⟩ := Option.map_eq_some'.mp he
      subst ha; simp

/-- Modifying the last element only touches the suffix past any prefix. -/
theorem modifyLast_append (f : DictEntry → DictEntry) (prior l : List DictEntry)
    (h : ¬ l = []) : modifyLast f (prior ++ l) = (modifyLast f l).map (prior ++ ·) := by
  induction prior with
  | nil =>
    simp only [List.nil_append]
    cases modifyLast f l with
    | none => rfl
    | some l' => rfl
  | cons e p ih =>
    have hpl : ¬ (p ++ l) = [] := by simp [h]
    cases hc : p ++ l with
    | nil => exact absurd hc hpl
    | cons x xs =>
      have hstep : modifyLast f (e :: x :: xs) = (modifyLast f (x :: xs)).map (e :: ·) := rfl
      rw [List.cons_append, hc, hstep, ← hc, ih]
      cases modifyLast f l with
      | none => rfl
      | some l' => simp

/-- The scalar invariant holds for a freshly constructed reader. -/
theorem luleInv_init (prior : List DictEntry) : luleInv (luleInit prior) := by
  exact ⟨by simp [luleInit], by simp [luleInit]⟩

/-- The start-tag handler preserves the scalar invariant. -/
theorem luleInv_start (st : LuleState) (tag : Str) (attrs : List (Str × Str))
    (hJ : luleInv st) : luleInv (luleHandleStarttag st tag attrs) := by
  obtain ⟨j1, j2⟩ := hJ
  unfold luleHandleStarttag luleInv
  dsimp only
  split <;> split <;> split <;> constructor <;> intro h <;> simp_all

/-- The end-tag handler preserves the scalar invariant. -/
theorem luleInv_end (st : LuleState) (tag : Str) (hJ : luleInv st) :
    luleInv (luleHandleEndtag st tag) := by
  obtain ⟨j1, j2⟩ := hJ
  unfold luleHandleEndtag
  by_cases htr : tag = "tr".data
  · have htd : ¬ tag = "td".data := by rw [htr]; decide
    rw [if_pos htr, if_neg htd]
    cases hgl : st.entries.getLast? with
    | none => exact ⟨by simp [hgl], by simp [hgl]⟩
    | some e =>
      by_cases he : e.word = []
      · exact ⟨by simp [hgl, he], by simp [hgl, he]⟩
      · exact ⟨by simp [hgl, he], by simp [hgl, he]⟩
  · rw [if_neg htr]
    by_cases htd : tag = "td".data
    · rw [if_pos htd]
      exact ⟨fun h => j1 h, fun h => j2 h⟩
    · rw [if_neg htd]
      exact ⟨j1, j2⟩

/-- The data handler preserves the scalar invariant. -/
theorem luleInv_data (st st' : LuleState) (s : Str)
    (h : luleHandleData st s = some st') (hJ : luleInv st) : luleInv st' := by
  obtain ⟨j1, j2⟩ := hJ
  unfold luleHandleData at h
  by_cases hr : st.reading_entry = false
  · rw [if_pos hr] at h
    have he : st = st' := by injection h
    subst he; exact ⟨j1, j2⟩
  rw [if_neg hr] at h
  have hrt : st.reading_entry = true := by simpa using hr
  have hne : ¬ st.entries = [] := j1 hrt
  by_cases h1 : st.td_num = 1 ∧ st.spans_seen = 1
  · rw [if_pos h1] at h
    obtain ⟨st1, hst1, h2⟩ := Option.bind_eq_some.mp h
    obtain ⟨l1, hl1, hst1e⟩ := Option.map_eq_some'.mp hst1
    subst hst1e
    have hl1ne := modifyLast_some_ne_nil _ _ _ hl1
    have hg : ¬ (({ st with entries := l1 } : LuleState).td_num = 2 ∧
        ({ st with entries := l1 } : LuleState).spans_seen = 1) := by
      intro hx
      have hx1 : st.td_num = 2 := hx.1
      rw [h1.1] at hx1
      exact absurd hx1 (by decide)
    rw [if_neg hg] at h2
    have he : ({ st with entries := l1 } : LuleState) = st' := by injection h2
    subst he
    exact ⟨fun _ => hl1ne, fun _ => hrt⟩
  · rw [if_neg h1, Option.some_bind] at h
    by_cases h2 : st.td_num = 2 ∧ st.spans_seen = 1
    · rw [if_pos h2] at h
      by_cases hone : s = "1".data
      · rw [if_pos hone] at h
        have he : ({ st with spans_seen := st.spans_seen - 1 } : LuleState) = st' := by
          injection h
        subst he
        exact ⟨fun _ => hne, fun _ => hrt⟩
      · rw [if_neg hone] at h
        obtain ⟨l1, hl1, hst1e⟩ := Option.map_eq_some'.mp h
        subst hst1e
        exact ⟨fun _ => modifyLast_some_ne_nil _ _ _ hl1, fun _ => hrt⟩
    · rw [if_neg h2] at h
      have he : st = st' := by injection h
      subst he
      exact ⟨j1, j2⟩

/-- The start-tag handler commutes with prefixing the shared entries list. -/
theorem luleStart_couple (st : LuleState) (prior : List DictEntry) (tag : Str)
    (attrs : List (Str × Str)) :
    luleHandleStarttag { st with entries := prior ++ st.entries } tag attrs =
      { luleHandleStarttag st tag attrs with
        entries := prior ++ (luleHandleStarttag st tag attrs).entries } := by
  unfold luleHandleStarttag
  dsimp only
  split <;> dsimp only <;> split <;> dsimp only <;> split <;>
    simp [List.append_assoc]

/-- The end-tag handler commutes with prefixing the shared entries list, as
long as the prefix does not end in an empty-word record (a stray `</tr>`
could otherwise pop a record left behind by the previous instance). -/
theorem luleEnd_couple (st : LuleState) (prior : List DictEntry) (tag : Str)
    (hp : ∀ e, prior.getLast? = some e → ¬ e.word = []) :
    luleHandleEndtag { st with entries := prior ++ st.entries } tag =
      { luleHandleEndtag st tag with
        entries := prior ++ (luleHandleEndtag st tag).entries } := by
  unfold luleHandleEndtag
  by_cases htr : tag = "tr".data
  · have htd : ¬ tag = "td".data := by rw [htr]; decide
    rw [if_pos htr, if_pos htr, if_neg htd, if_neg htd]
    dsimp only
    cases hst : st.entries with
    | nil =>
      simp only [hst, List.append_nil]
      cases hgl : prior.getLast? with
      | none => simp [hgl]
      | some e => simp [hgl, hp e hgl]
    | cons x xs =>
      have hne : ¬ st.entries = [] := by rw [hst]; simp
      rw [← hst]
      rw [List.getLast?_append_of_ne_nil prior hne]
      cases hgl : st.entries.getLast? with
      | none =>
        exfalso
        rw [List.getLast?_eq_none_iff] at hgl
        exact hne hgl
      | some e =>
        by_cases he : e.word = []
        · simp [he, List.dropLast_append_of_ne_nil prior hne]
        · simp [he]
  · rw [if_neg htr, if_neg htr]
    by_cases htd : tag = "td".data
    · rw [if_pos htd, if_pos htd]
    · rw [if_neg htd, if_neg htd]

/-- The data handler commutes with prefixing the shared entries list, under
the scalar invariant. -/
theorem luleData_couple (st : LuleState) (prior : List DictEntry) (s : Str)
    (hJ : luleInv st) :
    luleHandleData { st with entries := prior ++ st.entries } s =
      (luleHandleData st s).map (fun st' => { st' with entries := prior ++ st'.entries }) := by
  obtain ⟨j1, j2⟩ := hJ
  unfold luleHandleData
  by_cases hr : st.reading_entry = false
  · have hr' : ({ st with entries := prior ++ st.entries } : LuleState).reading_entry = false := hr
    rw [if_pos hr', if_pos hr]
    rfl
  have hrt : st.reading_entry = true := by simpa using hr
  have hne : ¬ st.entries = [] := j1 hrt
  rw [if_neg hr, if_neg hr]
  by_cases h1 : st.td_num = 1 ∧ st.spans_seen = 1
  · rw [if_pos h1, if_pos h1]
    rw [modifyLast_append _ prior st.entries hne]
    cases hm : modifyLast (fun e => { e with word := pyStrip (splitHeadOn ' ' s) }) st.entries with
    | none => rfl
    | some l1 =>
      simp only [Option.map_some', Option.some_bind]
      have hg : ¬ (({ st with entries := l1 } : LuleState).td_num = 2 ∧
          ({ st with entries := l1 } : LuleState).spans_seen = 1) := by
        intro hx
        have hx1 : st.td_num = 2 := hx.1
        rw [h1.1] at hx1
        exact absurd hx1 (by decide)
      have hg' : ¬ (({ st with entries := prior ++ l1 } : LuleState).td_num = 2 ∧
          ({ st with entries := prior ++ l1 } : LuleState).spans_seen = 1) := hg
      rw [if_neg hg, if_neg hg']
      rfl
  · rw [if_neg h1, if_neg h1, Option.some_bind, Option.some_bind]
    by_cases h2 : st.td_num = 2 ∧ st.spans_seen = 1
    · rw [if_pos h2, if_pos h2]
      by_cases hone : s = "1".data
      · rw [if_pos hone, if_pos hone]
        rfl
      · rw [if_neg hone, if_neg hone]
        rw [modifyLast_append _ prior st.entries hne]
        cases modifyLast (fun e =>
            { e with nor := some (pyStrip (splitHeadOn '(' (splitHeadOn ';' (splitHeadOn ',' s)))) })
            st.entries with
        | none => rfl
        | some l1 => rfl
    · rw [if_neg h2, if_neg h2]
      rfl

/-- Traversal of an event stream commutes with prefixing the shared entries
list, under the scalar invariant and a prefix not ending in an empty-word
record. -/
theorem luleProcess_couple (evts : List HtmlEvent) :
    ∀ (st : LuleState) (prior : List DictEntry),
      (∀ e, prior.getLast? = some e → ¬ e.word = []) → luleInv st →
      luleProcess evts { st with entries := prior ++ st.entries } =
        (luleProcess evts st).map (fun st' => { st' with entries := prior ++ st'.entries }) := by
  induction evts with
  | nil => intro st prior hp hJ; rfl
  | cons ev rest ih =>
    intro st prior hp hJ
    cases ev with
    | starttag tag attrs =>
      show luleProcess rest (luleHandleStarttag { st with entries := prior ++ st.entries } tag attrs) = _
      rw [luleStart_couple, ih _ prior hp (luleInv_start st tag attrs hJ)]
      rfl
    | data s =>
      show (luleHandleData { st with entries := prior ++ st.entries } s).bind (luleProcess rest) = _
      rw [luleData_couple st prior s hJ]
      have hR : luleProcess (HtmlEvent.data s :: rest) st =
          (luleHandleData st s).bind (luleProcess rest) := rfl
      rw [hR]
      cases hd : luleHandleData st s with
      | none => rfl
      | some st1 =>
        simp only [Option.map_some', Option.some_bind]
        exact ih st1 prior hp (luleInv_data st st1 s hd hJ)
    | endtag tag =>
      show luleProcess rest (luleHandleEndtag { st with entries := prior ++ st.entries } tag) = _
      rw [luleEnd_couple st prior tag hp, ih _ prior hp (luleInv_end st tag hJ)]
      rfl

/-- C10: `LuleDictReader` keeps its accumulated records as class-level state
that the constructor does not reset: a second instance constructed when the
class-level list already holds `prior` behaves exactly like a fresh run with
the results prefixed by `prior` — the sequence it returns is the previous
records followed by the new ones (so its length is the sum of the two
counts), not a sequence started from empty. -/
theorem lule_class_state_shared (evts : List HtmlEvent) (prior : List DictEntry)
    (hp : ∀ e, prior.getLast? = some e → ¬ e.word = []) :
    luleProcess evts (luleInit prior) =
      (luleProcess evts (luleInit [])).map
        (fun st => { st with entries := prior ++ st.entries }) ∧
    ∀ stF, luleProcess evts (luleInit []) = some stF →
      (luleProcess evts (luleInit prior)).map (fun st => st.entries.length) =
        some (prior.length + stF.entries.length) := by
  have hcouple := luleProcess_couple evts (luleInit []) prior hp (luleInv_init [])
  have hinit :
      ({ reading_entry := (luleInit []).reading_entry,
         entries := prior ++ (luleInit []).entries,
         td_num := (luleInit []).td_num,
         spans_seen := (luleInit []).spans_seen } : LuleState) = luleInit prior := by
    simp [luleInit]
  rw [hinit] at hcouple
  refine ⟨hcouple, fun stF hF => ?_⟩
  rw [hcouple, hF]
  simp

/-- Witness for C10: a previous instance left one record behind; a new
instance fed one recognized row returns both records, the old one first. -/
theorem lule_class_state_shared_witness :
    luleProcess (luleRow "bena ja".data "hund, dyr".data) (luleInit [lulePriorEntry]) =
      (luleProcess (luleRow "bena ja".data "hund, dyr".data) (luleInit [])).map
        (fun st => { st with entries := [lulePriorEntry] ++ st.entries }) ∧
    (luleProcess (luleRow "bena ja".data "hund, dyr".data) (luleInit [lulePriorEntry])).map
      (fun st => st.entries) =
      some [lulePriorEntry, { word := "bena".data, nor := some "hund".data }] := by
  have h := lule_class_state_shared (luleRow "bena ja".data "hund, dyr".data) [lulePriorEntry]
    (by intro e he; injection he with he; rw [← he]; decide)
  exact ⟨h.1, by rw [h.1]; decide⟩

/-- Below the autojunk threshold nothing is purged from `b2j`. -/
theorem b2j_short (b : Str) (h : b.length < 200) (c : Char) : b2j b c = b2jAll b c := by
  have hp : isPopular b c = false := by
    unfold isPopular
    simp [Nat.not_le.mpr h]
  simp [b2j, hp]

/-- Membership in the unpurged index lists. -/
theorem mem_b2jAll (b : Str) (c : Char) (j : Nat) :
    j ∈ b2jAll b c ↔ j < b.length ∧ b.get? j = some c := by
  simp [b2jAll, List.mem_filter, List.mem_range]

/-- The index lists hold no duplicates. -/
theorem b2jAll_nodup (b : Str) (c : Char) : (b2jAll b c).Nodup :=
  (List.nodup_range _).filter _

/-- Looking up a key in a one-pass tabulated row. -/
theorem rowGet_map (l : List Nat) (f : Nat → Nat) (j : Nat) (hl : l.Nodup) :
    rowGet (l.map (fun j => (j, f j))) j = if j ∈ l then f j else 0 := by
  induction l with
  | nil => simp [rowGet]
  | cons a l ih =>
    have hrec : rowGet ((a, f a) :: l.map (fun j => (j, f j))) j =
        if a = j then f a else rowGet (l.map (fun j => (j, f j))) j := by
      unfold rowGet
      by_cases ha : a = j
      · simp [List.find?_cons, ha]
      · have : ((a, f a).1 == j) = false := by simpa using ha
        simp [List.find?_cons, this, ha]
    rw [List.map_cons, hrec]
    by_cases ha : a = j
    · subst ha
      simp [ih hl.of_cons]
    · rw [ih hl.of_cons]
      by_cases hj : j ∈ l <;> simp [hj, ha, Ne.symm ha]

/-- The inner loop tabulates exactly the processed cells, newest first. -/
theorem flmCells_row (oldRow : List (Nat × Nat)) (i : Nat) (js : List Nat) :
    ∀ (newRow : List (Nat × Nat)) (best : Nat × Nat × Nat),
      (flmCells oldRow i js newRow best).1 =
        (js.reverse.map
          (fun j => (j, (if j = 0 then 0 else rowGet oldRow (j - 1)) + 1))) ++ newRow := by
  induction js with
  | nil => intro newRow best; simp [flmCells]
  | cons j js ih =>
    intro newRow best
    rw [show flmCells oldRow i (j :: js) newRow best =
        flmCells oldRow i js ((j, (if j = 0 then 0 else rowGet oldRow (j - 1)) + 1) :: newRow)
          (if best.2.2 < (if j = 0 then 0 else rowGet oldRow (j - 1)) + 1 then
            (i + 1 - ((if j = 0 then 0 else rowGet oldRow (j - 1)) + 1),
             j + 1 - ((if j = 0 then 0 else rowGet oldRow (j - 1)) + 1),
             (if j = 0 then 0 else rowGet oldRow (j - 1)) + 1)
          else best) from rfl, ih]
    simp

/-- The inner loop processes an appended cell list in two stages. -/
theorem flmCells_append (oldRow : List (Nat × Nat)) (i : Nat) (l1 l2 : List Nat) :
    ∀ (newRow : List (Nat × Nat)) (best : Nat × Nat × Nat),
      flmCells oldRow i (l1 ++ l2) newRow best =
        flmCells oldRow i l2 (flmCells oldRow i l1 newRow best).1
          (flmCells oldRow i l1 newRow best).2 := by
  induction l1 with
  | nil => intro newRow best; rfl
  | cons j js ih => intro newRow best; exact ih _ _

/-- Cells whose running length does not exceed the current best size leave the
best block unchanged. -/
theorem flmCells_no_update (oldRow : List (Nat × Nat)) (i : Nat) (js : List Nat)
    (best : Nat × Nat × Nat)
    (h : ∀ j ∈ js, (if j = 0 then 0 else rowGet oldRow (j - 1)) + 1 ≤ best.2.2) :
    ∀ newRow, (flmCells oldRow i js newRow best).2 = best := by
  induction js with
  | nil => intro newRow; rfl
  | cons j js ih =>
    intro newRow
    have hj := h j (by simp)
    have hif : ¬ best.2.2 < (if j = 0 then 0 else rowGet oldRow (j - 1)) + 1 :=
      Nat.not_lt.mpr hj
    rw [show flmCells oldRow i (j :: js) newRow best =
        flmCells oldRow i js ((j, (if j = 0 then 0 else rowGet oldRow (j - 1)) + 1) :: newRow)
          (if best.2.2 < (if j = 0 then 0 else rowGet oldRow (j - 1)) + 1 then
            (i + 1 - ((if j = 0 then 0 else rowGet oldRow (j - 1)) + 1),
             j + 1 - ((if j = 0 then 0 else rowGet oldRow (j - 1)) + 1),
             (if j = 0 then 0 else rowGet oldRow (j - 1)) + 1)
          else best) from rfl, if_neg hif]
    exact ih (fun x hx => h x (by simp [hx])) _

/-- Splitting an index range at an interior point. -/
theorem range_split_at (n i : Nat) (h : i < n) :
    List.range n = List.range' 0 i ++ i :: List.range' (i + 1) (n - i - 1) := by
  rw [List.range_eq_range']
  have h1 : List.range' 0 i 1 ++ List.range' (0 + 1 * i) (n - i) 1 =
      List.range' 0 (n - i + i) 1 := List.range'_append 0 i (n - i) 1
  have h2 : n - i + i = n := by omega
  rw [h2] at h1
  rw [← h1]
  congr 1
  rw [show n - i = (n - i - 1) + 1 from by omega, List.range'_succ]
  simp [Nat.one_mul]

/-- On a junk-free self-comparison, the running-length scan of the rows up to
`n` always ends with the full diagonal as the best block: entering row `i`
with best `(0, 0, i)`, a row table bounded by `min (j+1) i` and an exact
previous diagonal value `i`, the remaining rows produce `(0, 0, n)`. -/
theorem flmRows_diag (x : Str) (n : Nat) (hn : n = x.length) (h200 : n < 200) :
    ∀ (m i : Nat), i + m = n →
      ∀ row : List (Nat × Nat),
        (∀ j, rowGet row j ≤ j + 1 ∧ rowGet row j ≤ i) →
        (i = 0 ∨ rowGet row (i - 1) = i) →
        flmRows x x 0 n (List.range' i m) row (0, 0, i) = (0, 0, n) := by
  intro m
  induction m with
  | zero =>
    intro i hi row _ _
    have he : i = n := by omega
    subst he
    rfl
  | succ m ih =>
    intro i hi row hRb hDia
    have hilt : i < n := by omega
    cases hgc : x.get? i with
    | none =>
      exfalso
      rw [List.get?_eq_none] at hgc
      omega
    | some c =>
      have hq : (x.get? i == some c) = true := by rw [hgc]; exact beq_self_eq_true _
      have hbj : b2j x c = (List.range n).filter (fun j => x.get? j == some c) := by
        rw [b2j_short x (by omega) c]
        unfold b2jAll
        rw [hn]
      have hjs : (b2j x c).filter (fun j => decide (0 ≤ j) && decide (j < n)) =
          (List.range' 0 i).filter (fun j => x.get? j == some c) ++ i ::
            (List.range' (i + 1) (n - i - 1)).filter (fun j => x.get? j == some c) := by
        rw [hbj]
        have hall : ∀ j ∈ (List.range n).filter (fun j => x.get? j == some c),
            (decide (0 ≤ j) && decide (j < n)) = true := by
          intro j hj
          simp only [List.mem_filter, List.mem_range] at hj
          simp [hj.1]
        rw [List.filter_eq_self.mpr hall, range_split_at n i hilt, List.filter_append,
          List.filter_cons, if_pos hq]
      -- bounds on the running lengths of this row's cells
      have hval : ∀ j, (if j = 0 then 0 else rowGet row (j - 1)) + 1 ≤ j + 1 ∧
          (if j = 0 then 0 else rowGet row (j - 1)) + 1 ≤ i + 1 := by
        intro j
        by_cases hj0 : j = 0
        · subst hj0; simp
        · rw [if_neg hj0]
          have h1 := (hRb (j - 1)).1
          have h2 := (hRb (j - 1)).2
          omega
      have hvi : (if i = 0 then 0 else rowGet row (i - 1)) + 1 = i + 1 := by
        by_cases h0 : i = 0
        · rw [if_pos h0, h0]
        · rw [if_neg h0]
          rcases hDia with h0' | hd
          · exact absurd h0' h0
          · rw [hd]
      -- one step of the row fold
      rw [List.range'_succ]
      have hstep : flmRows x x 0 n (i :: List.range' (i + 1) m) row (0, 0, i) =
          flmRows x x 0 n (List.range' (i + 1) m)
            (flmCells row i ((match x.get? i with
              | some c => b2j x c
              | none => []).filter (fun j => decide (0 ≤ j) && decide (j < n))) [] (0, 0, i)).1
            (flmCells row i ((match x.get? i with
              | some c => b2j x c
              | none => []).filter (fun j => decide (0 ≤ j) && decide (j < n))) [] (0, 0, i)).2 :=
        rfl
      rw [hstep, hgc]
      simp only [hjs]
      set A := (List.range' 0 i).filter (fun j => x.get? j == some c) with hA
      set C := (List.range' (i + 1) (n - i - 1)).filter (fun j => x.get? j == some c) with hC
      have hAlt : ∀ j ∈ A, j < i := by
        intro j hj
        rw [hA] at hj
        have := List.mem_of_mem_filter hj
        have h2 := List.mem_range'_1.mp this
        omega
      have hCgt : ∀ j ∈ C, i + 1 ≤ j := by
        intro j hj
        rw [hC] at hj
        have := List.mem_of_mem_filter hj
        have h2 := List.mem_range'_1.mp this
        omega
      -- best after phase A: unchanged
      have hbestA : (flmCells row i A [] (0, 0, i)).2 = (0, 0, i) := by
        apply flmCells_no_update
        intro j hj
        show (if j = 0 then 0 else rowGet row (j - 1)) + 1 ≤ i
        have h2 := hAlt j hj
        by_cases hj0 : j = 0
        · rw [if_pos hj0]
          omega
        · rw [if_neg hj0]
          have h1 := (hRb (j - 1)).1
          omega
      -- the middle cell i updates the best to the diagonal (0, 0, i + 1),
      -- and phase C cannot beat it
      have hkey : (flmCells row i (A ++ i :: C) [] (0, 0, i)).2 = (0, 0, i + 1) := by
        rw [flmCells_append, hbestA]
        have hone : flmCells row i (i :: C) (flmCells row i A [] (0, 0, i)).1 (0, 0, i) =
            flmCells row i C
              ((i, (if i = 0 then 0 else rowGet row (i - 1)) + 1) ::
                (flmCells row i A [] (0, 0, i)).1)
              (if (i : Nat) < (if i = 0 then 0 else rowGet row (i - 1)) + 1 then
                (i + 1 - ((if i = 0 then 0 else rowGet row (i - 1)) + 1),
                 i + 1 - ((if i = 0 then 0 else rowGet row (i - 1)) + 1),
                 (if i = 0 then 0 else rowGet row (i - 1)) + 1)
              else (0, 0, i)) := rfl
        rw [hone, hvi, if_pos (Nat.lt_succ_self i), Nat.sub_self]
        apply flmCells_no_update
        intro j hj
        show (if j = 0 then 0 else rowGet row (j - 1)) + 1 ≤ i + 1
        by_cases hj0 : j = 0
        · rw [if_pos hj0]
          omega
        · rw [if_neg hj0]
          have h1 := (hRb (j - 1)).2
          omega
      have hrow : (flmCells row i (A ++ i :: C) [] (0, 0, i)).1 =
          ((A ++ i :: C).reverse.map
            (fun j => (j, (if j = 0 then 0 else rowGet row (j - 1)) + 1))) ++ [] :=
        flmCells_row row i (A ++ i :: C) [] (0, 0, i)
      have hnd : ((A ++ i :: C).reverse).Nodup := by
        rw [List.nodup_reverse, ← hjs]
        exact List.Nodup.filter _
          (by unfold b2j; split; exacts [List.nodup_nil, b2jAll_nodup x c])
      rw [hkey, hrow, List.append_nil]
      apply ih (i + 1) (by omega)
      · intro j
        rw [rowGet_map _ _ _ hnd]
        by_cases hj : j ∈ (A ++ i :: C).reverse
        · rw [if_pos hj]
          have h1 := (hval j).1
          have h2 := (hval j).2
          omega
        · rw [if_neg hj]
          omega
      · right
        have hmem : i ∈ (A ++ i :: C).reverse := by simp
        rw [Nat.add_sub_cancel, rowGet_map _ _ _ hnd, if_pos hmem, hvi]

/-- The purged index lists hold no duplicates either. -/
theorem b2j_nodup (b : Str) (c : Char) : (b2j b c).Nodup := by
  unfold b2j
  split
  · exact List.nodup_nil
  · exact b2jAll_nodup b c

/-- Window bounds on a freshly computed running-length cell value. -/
theorem flmCell_val_bounds (oldRow : List (Nat × Nat)) (alo blo i j : Nat)
    (hi : alo ≤ i) (hj : blo ≤ j)
    (hrow : ∀ j, rowGet oldRow j ≤ i - alo ∧ rowGet oldRow j ≤ j + 1 - blo) :
    (if j = 0 then 0 else rowGet oldRow (j - 1)) + 1 ≤ i + 1 - alo ∧
    (if j = 0 then 0 else rowGet oldRow (j - 1)) + 1 ≤ j + 1 - blo := by
  by_cases hj0 : j = 0
  · subst hj0
    rw [if_pos rfl]
    omega
  · rw [if_neg hj0]
    have h1 := (hrow (j - 1)).1
    have h2 := (hrow (j - 1)).2
    omega

/-- The inner loop keeps the best block inside the window. -/
theorem flmCells_best_bounds (oldRow : List (Nat × Nat)) (alo ahi blo bhi i : Nat)
    (hi : alo ≤ i) (hia : i < ahi)
    (hrow : ∀ j, rowGet oldRow j ≤ i - alo ∧ rowGet oldRow j ≤ j + 1 - blo) :
    ∀ (js : List Nat), (∀ j ∈ js, blo ≤ j ∧ j < bhi) →
      ∀ (newRow : List (Nat × Nat)) (best : Nat × Nat × Nat),
        alo ≤ best.1 → blo ≤ best.2.1 → best.1 + best.2.2 ≤ ahi →
          best.2.1 + best.2.2 ≤ bhi →
        alo ≤ (flmCells oldRow i js newRow best).2.1 ∧
        blo ≤ (flmCells oldRow i js newRow best).2.2.1 ∧
        (flmCells oldRow i js newRow best).2.1 +
          (flmCells oldRow i js newRow best).2.2.2 ≤ ahi ∧
        (flmCells oldRow i js newRow best).2.2.1 +
          (flmCells oldRow i js newRow best).2.2.2 ≤ bhi := by
  intro js
  induction js with
  | nil =>
    intro _ newRow best h1 h2 h3 h4
    exact ⟨h1, h2, h3, h4⟩
  | cons j js ih =>
    intro hjs newRow best h1 h2 h3 h4
    have hjm := hjs j (List.mem_cons_self j js)
    have hv := flmCell_val_bounds oldRow alo blo i j hi hjm.1 hrow
    obtain ⟨hv1, hv2⟩ := hv
    rw [show flmCells oldRow i (j :: js) newRow best =
        flmCells oldRow i js ((j, (if j = 0 then 0 else rowGet oldRow (j - 1)) + 1) :: newRow)
          (if best.2.2 < (if j = 0 then 0 else rowGet oldRow (j - 1)) + 1 then
            (i + 1 - ((if j = 0 then 0 else rowGet oldRow (j - 1)) + 1),
             j + 1 - ((if j = 0 then 0 else rowGet oldRow (j - 1)) + 1),
             (if j = 0 then 0 else rowGet oldRow (j - 1)) + 1)
          else best) from rfl]
    by_cases hup : best.2.2 < (if j = 0 then 0 else rowGet oldRow (j - 1)) + 1
    · rw [if_pos hup]
      refine ih (fun x hx => hjs x (List.mem_cons_of_mem j hx)) _ _ ?_ ?_ ?_ ?_
      · show alo ≤ i + 1 - ((if j = 0 then 0 else rowGet oldRow (j - 1)) + 1)
        omega
      · show blo ≤ j + 1 - ((if j = 0 then 0 else rowGet oldRow (j - 1)) + 1)
        omega
      · show i + 1 - ((if j = 0 then 0 else rowGet oldRow (j - 1)) + 1) +
            ((if j = 0 then 0 else rowGet oldRow (j - 1)) + 1) ≤ ahi
        omega
      · show j + 1 - ((if j = 0 then 0 else rowGet oldRow (j - 1)) + 1) +
            ((if j = 0 then 0 else rowGet oldRow (j - 1)) + 1) ≤ bhi
        omega
    · rw [if_neg hup]
      exact ih (fun x hx => hjs x (List.mem_cons_of_mem j hx)) _ _ h1 h2 h3 h4

/-- The outer row scan keeps the best block inside the window. -/
theorem flmRows_bounds (a b : Str) (alo ahi blo bhi : Nat) :
    ∀ (m i : Nat), alo ≤ i → i + m ≤ ahi →
      ∀ (row : List (Nat × Nat)) (best : Nat × Nat × Nat),
        (∀ j, rowGet row j ≤ i - alo ∧ rowGet row j ≤ j + 1 - blo) →
        alo ≤ best.1 → blo ≤ best.2.1 → best.1 + best.2.2 ≤ ahi →
          best.2.1 + best.2.2 ≤ bhi →
        alo ≤ (flmRows a b blo bhi (List.range' i m) row best).1 ∧
        blo ≤ (flmRows a b blo bhi (List.range' i m) row best).2.1 ∧
        (flmRows a b blo bhi (List.range' i m) row best).1 +
          (flmRows a b blo bhi (List.range' i m) row best).2.2 ≤ ahi ∧
        (flmRows a b blo bhi (List.range' i m) row best).2.1 +
          (flmRows a b blo bhi (List.range' i m) row best).2.2 ≤ bhi := by
  intro m
  induction m with
  | zero =>
    intro i hi him row best hrow h1 h2 h3 h4
    exact ⟨h1, h2, h3, h4⟩
  | succ m ih =>
    intro i hi him row best hrow h1 h2 h3 h4
    rw [List.range'_succ]
    have hstep : flmRows a b blo bhi (i :: List.range' (i + 1) m) row best =
        flmRows a b blo bhi (List.range' (i + 1) m)
          (flmCells row i ((match a.get? i with
            | some c => b2j b c
            | none => []).filter (fun j => decide (blo ≤ j) && decide (j < bhi))) [] best).1
          (flmCells row i ((match a.get? i with
            | some c => b2j b c
            | none => []).filter (fun j => decide (blo ≤ j) && decide (j < bhi))) [] best).2 :=
      rfl
    rw [hstep]
    set js := (match a.get? i with
      | some c => b2j b c
      | none => []).filter (fun j => decide (blo ≤ j) && decide (j < bhi)) with hjsdef
    have hjsmem : ∀ j ∈ js, blo ≤ j ∧ j < bhi := by
      intro j hj
      rw [hjsdef] at hj
      have hf := List.of_mem_filter hj
      simpa using hf
    have hjsnd : js.Nodup := by
      rw [hjsdef]
      apply List.Nodup.filter
      cases a.get? i with
      | none => exact List.nodup_nil
      | some c => exact b2j_nodup b c
    have hbest := flmCells_best_bounds row alo ahi blo bhi i hi (by omega) hrow js hjsmem
      [] best h1 h2 h3 h4
    have hrownext : ∀ j, rowGet (flmCells row i js [] best).1 j ≤ i + 1 - alo ∧
        rowGet (flmCells row i js [] best).1 j ≤ j + 1 - blo := by
      intro j
      rw [flmCells_row, List.append_nil,
        rowGet_map _ _ _ (List.nodup_reverse.mpr hjsnd)]
      by_cases hj : j ∈ js.reverse
      · rw [if_pos hj]
        exact flmCell_val_bounds row alo blo i j hi
          (hjsmem j (List.mem_reverse.mp hj)).1 hrow
      · rw [if_neg hj]
        exact ⟨Nat.zero_le _, Nat.zero_le _⟩
    exact ih (i + 1) (by omega) (by omega) _ _ hrownext
      hbest.1 hbest.2.1 hbest.2.2.1 hbest.2.2.2

/-- The backward extension keeps the block inside the window and preserves
both end positions of the best block. -/
theorem extBack_bounds (a b : Str) (alo blo : Nat) (p : Char → Bool) :
    ∀ (besti bestj bestsize : Nat), alo ≤ besti → blo ≤ bestj →
      alo ≤ (extBack a b alo blo p besti bestj bestsize).1 ∧
      blo ≤ (extBack a b alo blo p besti bestj bestsize).2.1 ∧
      (extBack a b alo blo p besti bestj bestsize).1 +
        (extBack a b alo blo p besti bestj bestsize).2.2 = besti + bestsize ∧
      (extBack a b alo blo p besti bestj bestsize).2.1 +
        (extBack a b alo blo p besti bestj bestsize).2.2 = bestj + bestsize := by
  intro besti
  induction besti with
  | zero =>
    intro bestj bestsize h1 h2
    exact ⟨h1, h2, rfl, rfl⟩
  | succ n ih =>
    intro bestj bestsize h1 h2
    by_cases hc : (decide (alo < n + 1) && decide (blo < bestj) &&
        (match b.get? (bestj - 1) with
         | some c => p c && (a.get? n == some c)
         | none => false)) = true
    · have hstep : extBack a b alo blo p (n + 1) bestj bestsize =
          extBack a b alo blo p n (bestj - 1) (bestsize + 1) := by
        rw [extBack, if_pos hc]
      rw [hstep]
      simp only [Bool.and_eq_true, decide_eq_true_eq] at hc
      have hr := ih (bestj - 1) (bestsize + 1) (by omega) (by omega)
      refine ⟨hr.1, hr.2.1, ?_, ?_⟩
      · rw [hr.2.2.1]
        omega
      · rw [hr.2.2.2]
        omega
    · have hstep : extBack a b alo blo p (n + 1) bestj bestsize =
          (n + 1, bestj, bestsize) := by
        rw [extBack, if_neg hc]
      rw [hstep]
      exact ⟨h1, h2, rfl, rfl⟩

/-- The forward extension keeps the block end inside the window. -/
theorem extFwd_bounds (a b : Str) (ahi bhi : Nat) (p : Char → Bool) :
    ∀ (fuel besti bestj bestsize : Nat),
      besti + bestsize ≤ ahi → bestj + bestsize ≤ bhi →
      besti + extFwd a b ahi bhi p fuel besti bestj bestsize ≤ ahi ∧
      bestj + extFwd a b ahi bhi p fuel besti bestj bestsize ≤ bhi := by
  intro fuel
  induction fuel with
  | zero =>
    intro besti bestj bestsize h1 h2
    exact ⟨h1, h2⟩
  | succ n ih =>
    intro besti bestj bestsize h1 h2
    by_cases hc : (decide (besti + bestsize < ahi) && decide (bestj + bestsize < bhi) &&
        (match b.get? (bestj + bestsize) with
         | some c => p c && (a.get? (besti + bestsize) == some c)
         | none => false)) = true
    · have hstep : extFwd a b ahi bhi p (n + 1) besti bestj bestsize =
          extFwd a b ahi bhi p n besti bestj (bestsize + 1) := by
        rw [extFwd, if_pos hc]
      rw [hstep]
      simp only [Bool.and_eq_true, decide_eq_true_eq] at hc
      exact ih besti bestj (bestsize + 1) (by omega) (by omega)
    · have hstep : extFwd a b ahi bhi p (n + 1) besti bestj bestsize = bestsize := by
        rw [extFwd, if_neg hc]
      rw [hstep]
      exact ⟨h1, h2⟩

/-- The longest match reported for a window lies inside the window. -/
theorem findLongestMatch_bounds (a b : Str) (alo ahi blo bhi : Nat)
    (ha : alo ≤ ahi) (hb : blo ≤ bhi) :
    alo ≤ (findLongestMatch a b alo ahi blo bhi).1 ∧
    blo ≤ (findLongestMatch a b alo ahi blo bhi).2.1 ∧
    (findLongestMatch a b alo ahi blo bhi).1 +
      (findLongestMatch a b alo ahi blo bhi).2.2 ≤ ahi ∧
    (findLongestMatch a b alo ahi blo bhi).2.1 +
      (findLongestMatch a b alo ahi blo bhi).2.2 ≤ bhi := by
  have h0 := flmRows_bounds a b alo ahi blo bhi (ahi - alo) alo (Nat.le_refl alo)
    (by omega) [] (alo, blo, 0) (fun j => ⟨Nat.zero_le _, Nat.zero_le _⟩)
    (Nat.le_refl alo) (Nat.le_refl blo) (by show alo + 0 ≤ ahi; omega)
    (by show blo + 0 ≤ bhi; omega)
  unfold findLongestMatch
  dsimp only
  obtain ⟨h01, h02, h03, h04⟩ := h0
  generalize hg0 : flmRows a b blo bhi (List.range' alo (ahi - alo)) [] (alo, blo, 0) = B0
    at h01 h02 h03 h04 ⊢
  obtain ⟨i0, j0, k0⟩ := B0
  dsimp only at h01 h02 h03 h04 ⊢
  have hA := extBack_bounds a b alo blo (fun _ => true) i0 j0 k0 h01 h02
  obtain ⟨hA1, hA2, hA3, hA4⟩ := hA
  generalize hgA : extBack a b alo blo (fun _ => true) i0 j0 k0 = BA
    at hA1 hA2 hA3 hA4 ⊢
  obtain ⟨iA, jA, kA⟩ := BA
  dsimp only at hA1 hA2 hA3 hA4 ⊢
  have hB := extFwd_bounds a b ahi bhi (fun _ => true) ahi iA jA kA (by omega) (by omega)
  obtain ⟨hB1, hB2⟩ := hB
  generalize hgB : extFwd a b ahi bhi (fun _ => true) ahi iA jA kA = szB at hB1 hB2 ⊢
  have hC := extBack_bounds a b alo blo (fun _ => false) iA jA szB hA1 hA2
  obtain ⟨hC1, hC2, hC3, hC4⟩ := hC
  generalize hgC : extBack a b alo blo (fun _ => false) iA jA szB = BC
    at hC1 hC2 hC3 hC4 ⊢
  obtain ⟨iC, jC, kC⟩ := BC
  dsimp only at hC1 hC2 hC3 hC4 ⊢
  have hD := extFwd_bounds a b ahi bhi (fun _ => false) ahi iC jC kC (by omega) (by omega)
  obtain ⟨hD1, hD2⟩ := hD
  generalize hgD : extFwd a b ahi bhi (fun _ => false) ahi iC jC kC = szD at hD1 hD2 ⊢
  exact ⟨hC1, hC2, hD1, hD2⟩

/-- The block-size sum of a window never exceeds either window length. -/
theorem matchingSum_le (a b : Str) :
    ∀ (fuel alo ahi blo bhi : Nat), alo ≤ ahi → blo ≤ bhi →
      matchingSum a b fuel alo ahi blo bhi ≤ ahi - alo ∧
      matchingSum a b fuel alo ahi blo bhi ≤ bhi - blo := by
  intro fuel
  induction fuel with
  | zero =>
    intro alo ahi blo bhi ha hb
    exact ⟨Nat.zero_le _, Nat.zero_le _⟩
  | succ fuel ih =>
    intro alo ahi blo bhi ha hb
    have hm := findLongestMatch_bounds a b alo ahi blo bhi ha hb
    rw [matchingSum]
    generalize hg : findLongestMatch a b alo ahi blo bhi = m at hm ⊢
    obtain ⟨i, j, k⟩ := m
    dsimp only at hm ⊢
    obtain ⟨hm1, hm2, hm3, hm4⟩ := hm
    by_cases hk : k = 0
    · rw [if_pos hk]
      exact ⟨Nat.zero_le _, Nat.zero_le _⟩
    · rw [if_neg hk]
      have hL1 : (if alo < i && blo < j then matchingSum a b fuel alo i blo j else 0)
          ≤ i - alo := by
        by_cases hcl : alo < i ∧ blo < j
        · rw [if_pos (by simp only [Bool.and_eq_true, decide_eq_true_eq]; exact hcl)]
          exact (ih alo i blo j (Nat.le_of_lt hcl.1) (Nat.le_of_lt hcl.2)).1
        · rw [if_neg (by simp only [Bool.and_eq_true, decide_eq_true_eq]; exact hcl)]
          exact Nat.zero_le _
      have hL2 : (if alo < i && blo < j then matchingSum a b fuel alo i blo j else 0)
          ≤ j - blo := by
        by_cases hcl : alo < i ∧ blo < j
        · rw [if_pos (by simp only [Bool.and_eq_true, decide_eq_true_eq]; exact hcl)]
          exact (ih alo i blo j (Nat.le_of_lt hcl.1) (Nat.le_of_lt hcl.2)).2
        · rw [if_neg (by simp only [Bool.and_eq_true, decide_eq_true_eq]; exact hcl)]
          exact Nat.zero_le _
      have hR1 : (if i + k < ahi && j + k < bhi then
          matchingSum a b fuel (i + k) ahi (j + k) bhi else 0) ≤ ahi - (i + k) := by
        by_cases hcr : i + k < ahi ∧ j + k < bhi
        · rw [if_pos (by simp only [Bool.and_eq_true, decide_eq_true_eq]; exact hcr)]
          exact (ih (i + k) ahi (j + k) bhi (Nat.le_of_lt hcr.1) (Nat.le_of_lt hcr.2)).1
        · rw [if_neg (by simp only [Bool.and_eq_true, decide_eq_true_eq]; exact hcr)]
          exact Nat.zero_le _
      have hR2 : (if i + k < ahi && j + k < bhi then
          matchingSum a b fuel (i + k) ahi (j + k) bhi else 0) ≤ bhi - (j + k) := by
        by_cases hcr : i + k < ahi ∧ j + k < bhi
        · rw [if_pos (by simp only [Bool.and_eq_true, decide_eq_true_eq]; exact hcr)]
          exact (ih (i + k) ahi (j + k) bhi (Nat.le_of_lt hcr.1) (Nat.le_of_lt hcr.2)).2
        · rw [if_neg (by simp only [Bool.and_eq_true, decide_eq_true_eq]; exact hcr)]
          exact Nat.zero_le _
      generalize hLg : (if alo < i && blo < j then matchingSum a b fuel alo i blo j else 0)
        = L at hL1 hL2 ⊢
      generalize hRg : (if i + k < ahi && j + k < bhi then
        matchingSum a b fuel (i + k) ahi (j + k) bhi else 0) = R at hR1 hR2 ⊢
      constructor
      · omega
      · omega

/-- The similarity ratio always lies in the unit interval. -/
theorem ratio_unit (a b : Str) : 0 ≤ ratio a b ∧ ratio a b ≤ 1 := by
  by_cases h : a.length + b.length = 0
  · have he : ratio a b = 1 := by
      simp only [ratio, if_pos h]
    rw [he]
    norm_num
  · rw [ratio_eq_div a b h]
    have hM := matchingSum_le a b (a.length + b.length + 1) 0 a.length 0 b.length
      (Nat.zero_le _) (Nat.zero_le _)
    rw [Nat.sub_zero, Nat.sub_zero] at hM
    have hpos : 0 < a.length + b.length := Nat.pos_of_ne_zero h
    have hd : (0 : ℚ) < (a.length : ℚ) + (b.length : ℚ) := by exact_mod_cast hpos
    constructor
    · positivity
    · rw [div_le_one hd]
      have hn : 2 * matchingSum a b (a.length + b.length + 1) 0 a.length 0 b.length ≤
          a.length + b.length := by omega
      exact_mod_cast hn

/-- `similar` always lies in the unit interval. -/
theorem similar_unit (a b : Option Str) : 0 ≤ similar a b ∧ similar a b ≤ 1 := by
  cases a with
  | none =>
    cases b with
    | none => exact ⟨le_refl 0, by show (0 : ℚ) ≤ 1; norm_num⟩
    | some y => exact ⟨le_refl 0, by show (0 : ℚ) ≤ 1; norm_num⟩
  | some x =>
    cases b with
    | none => exact ⟨le_refl 0, by show (0 : ℚ) ≤ 1; norm_num⟩
    | some y => exact ratio_unit x y

/-- A purge-surviving streak never exceeds the prefix length. -/
theorem runW_le (x : Str) : ∀ r, runW x r ≤ r + 1 := by
  intro r
  induction r with
  | zero =>
    unfold runW
    split <;> omega
  | succ r ih =>
    unfold runW
    split <;> omega

/-- Unfolding of the streak length at a surviving position. -/
theorem runW_diag_true (x : Str) (r : Nat) (h : diagOk x r = true) :
    runW x r = (if r = 0 then 0 else runW x (r - 1)) + 1 := by
  cases r with
  | zero => simp [runW, h]
  | succ r => simp [runW, h]

/-- The streak length vanishes at a purged position. -/
theorem runW_diag_false (x : Str) (r : Nat) (h : diagOk x r = false) :
    runW x r = 0 := by
  cases r with
  | zero => simp [runW, h]
  | succ r => simp [runW, h]

/-- A position holding an unpurged character survives the purge. -/
theorem diagOk_of_lookup (x : Str) (j : Nat) (c : Char) (hgc : x.get? j = some c)
    (hpop : isPopular x c = false) : diagOk x j = true := by
  unfold diagOk
  rw [hgc]
  show (!isPopular x c) = true
  rw [hpop]
  rfl

/-- On self-comparison the non-junk backward extension of a diagonal block
always runs to the start of the window: `a[besti-1] == b[bestj-1]` is the
comparison of a character with itself. -/
theorem extBack_self (x : Str) :
    ∀ (d s : Nat), d ≤ x.length →
      extBack x x 0 0 (fun _ => true) d d s = (0, 0, d + s) := by
  intro d
  induction d with
  | zero =>
    intro s _
    rw [Nat.zero_add]
    rfl
  | succ d ih =>
    intro s hd
    obtain ⟨c, hgc⟩ : ∃ c, x.get? d = some c := by
      cases hg : x.get? d with
      | none =>
        rw [List.get?_eq_none] at hg
        omega
      | some c => exact ⟨c, rfl⟩
    have hc : (decide (0 < d + 1) && decide (0 < d + 1) &&
        (match x.get? (d + 1 - 1) with
         | some c => (fun _ => true) c && (x.get? d == some c)
         | none => false)) = true := by
      rw [Nat.add_sub_cancel, hgc]
      simp
    have hstep : extBack x x 0 0 (fun _ => true) (d + 1) (d + 1) s =
        extBack x x 0 0 (fun _ => true) d (d + 1 - 1) (s + 1) := by
      rw [extBack, if_pos hc]
    rw [hstep, Nat.add_sub_cancel, ih (s + 1) (by omega),
      show d + (s + 1) = d + 1 + s from by omega]

/-- On self-comparison the non-junk forward extension from the start of the
window always runs to its end. -/
theorem extFwd_self (x : Str) :
    ∀ (fuel s : Nat), s ≤ x.length → x.length ≤ s + fuel →
      extFwd x x x.length x.length (fun _ => true) fuel 0 0 s = x.length := by
  intro fuel
  induction fuel with
  | zero =>
    intro s h1 h2
    have hs : s = x.length := by omega
    rw [hs]
    rfl
  | succ m ih =>
    intro s h1 h2
    by_cases hs : s < x.length
    · obtain ⟨c, hgc⟩ : ∃ c, x.get? s = some c := by
        cases hg : x.get? s with
        | none =>
          rw [List.get?_eq_none] at hg
          omega
        | some c => exact ⟨c, rfl⟩
      have hc : (decide (0 + s < x.length) && decide (0 + s < x.length) &&
          (match x.get? (0 + s) with
           | some c => (fun _ => true) c && (x.get? (0 + s) == some c)
           | none => false)) = true := by
        rw [Nat.zero_add, hgc]
        simp [hs]
      have hstep : extFwd x x x.length x.length (fun _ => true) (m + 1) 0 0 s =
          extFwd x x x.length x.length (fun _ => true) m 0 0 (s + 1) := by
        rw [extFwd, if_pos hc]
      rw [hstep]
      exact ih (s + 1) (by omega) (by omega)
    · have hsn : s = x.length := by omega
      have hc : ¬ ((decide (0 + s < x.length) && decide (0 + s < x.length) &&
          (match x.get? (0 + s) with
           | some c => (fun _ => true) c && (x.get? (0 + s) == some c)
           | none => false)) = true) := by
        intro hcontra
        simp only [Bool.and_eq_true, decide_eq_true_eq] at hcontra
        omega
      rw [extFwd, if_neg hc]
      exact hsn

/-- Any extension loop is a no-op once the block already spans the window. -/
theorem extFwd_stop (x : Str) (p : Char → Bool) (fuel : Nat) :
    extFwd x x x.length x.length p fuel 0 0 x.length = x.length := by
  cases fuel with
  | zero => rfl
  | succ m =>
    have hc : ¬ ((decide (0 + x.length < x.length) && decide (0 + x.length < x.length) &&
        (match x.get? (0 + x.length) with
         | some c => p c && (x.get? (0 + x.length) == some c)
         | none => false)) = true) := by
      simp
    rw [extFwd, if_neg hc]

/-- Core invariant of the self-comparison row scan, autojunk included.
Entering row `i`, the best block is a diagonal block ending before row `i`
whose size dominates the streak length of every earlier row, and the
running-length table of the previous row is dominated by the column streaks
and by the previous row's streak, with the diagonal entry exact.  A freshly
computed cell `(i, j)` then has value at most `runW x j` and at most
`runW x i`: for `j < i` the former is at most the best size already (its
column's streak ended at an earlier row), and for `j > i` the diagonal cell
`(i, i)` — processed earlier in the same row, the index lists being ascending
— already raised the best size to at least the latter.  So only diagonal
cells ever update the best block, and the scan ends in a diagonal block
inside the window. -/
theorem flmRows_selfInv (x : Str) (n : Nat) (hn : n = x.length) :
    ∀ (m i : Nat), i + m = n →
      ∀ (row : List (Nat × Nat)) (d s : Nat),
        d + s ≤ i →
        (∀ r, r < i → runW x r ≤ s) →
        (∀ j, rowGet row j ≤ runW x j) →
        (∀ j, rowGet row j ≤ (if i = 0 then 0 else runW x (i - 1))) →
        ((if i = 0 then 0 else rowGet row (i - 1)) =
          (if i = 0 then 0 else runW x (i - 1))) →
        ∃ d' s', flmRows x x 0 n (List.range' i m) row (d, d, s) = (d', d', s') ∧
          d' + s' ≤ n := by
  intro m
  induction m with
  | zero =>
    intro i hi row d s hA hB hR1 hR2 hDia
    exact ⟨d, s, rfl, by omega⟩
  | succ m ih =>
    intro i hi row d s hA hB hR1 hR2 hDia
    have hilt : i < n := by omega
    cases hgc : x.get? i with
    | none =>
      exfalso
      rw [List.get?_eq_none] at hgc
      omega
    | some c =>
      rw [List.range'_succ]
      have hstep : flmRows x x 0 n (i :: List.range' (i + 1) m) row (d, d, s) =
          flmRows x x 0 n (List.range' (i + 1) m)
            (flmCells row i ((match x.get? i with
              | some c => b2j x c
              | none => []).filter (fun j => decide (0 ≤ j) && decide (j < n))) []
              (d, d, s)).1
            (flmCells row i ((match x.get? i with
              | some c => b2j x c
              | none => []).filter (fun j => decide (0 ≤ j) && decide (j < n))) []
              (d, d, s)).2 :=
        rfl
      rw [hstep, hgc]
      cases hpop : isPopular x c with
      | true =>
        -- the whole row is purged: the running-length table resets and the
        -- best block is untouched
        have hbj : b2j x c = [] := by simp [b2j, hpop]
        have hrw : runW x i = 0 :=
          runW_diag_false x i
            (by unfold diagOk; rw [hgc]; show (!isPopular x c) = false; rw [hpop]; rfl)
        have hjs0 : (b2j x c).filter (fun j => decide (0 ≤ j) && decide (j < n)) = [] := by
          rw [hbj]
          rfl
        simp only [hjs0]
        refine ih (i + 1) (by omega) [] d s (by omega) ?_ ?_ ?_ ?_
        · intro r hr
          by_cases hri : r < i
          · exact hB r hri
          · have hr' : r = i := by omega
            rw [hr', hrw]
            exact Nat.zero_le s
        · intro j
          exact Nat.zero_le _
        · intro j
          exact Nat.zero_le _
        · rw [if_neg (Nat.succ_ne_zero i), if_neg (Nat.succ_ne_zero i)]
          show (0 : Nat) = runW x (i + 1 - 1)
          rw [Nat.add_sub_cancel, hrw]
      | false =>
        have hq : (x.get? i == some c) = true := by rw [hgc]; exact beq_self_eq_true _
        have hbj : b2j x c = (List.range n).filter (fun j => x.get? j == some c) := by
          have hb : b2j x c = b2jAll x c := by simp [b2j, hpop]
          rw [hb]
          unfold b2jAll
          rw [hn]
        have hjs : (b2j x c).filter (fun j => decide (0 ≤ j) && decide (j < n)) =
            (List.range' 0 i).filter (fun j => x.get? j == some c) ++ i ::
              (List.range' (i + 1) (n - i - 1)).filter (fun j => x.get? j == some c) := by
          rw [hbj]
          have hall : ∀ j ∈ (List.range n).filter (fun j => x.get? j == some c),
              (decide (0 ≤ j) && decide (j < n)) = true := by
            intro j hj
            simp only [List.mem_filter, List.mem_range] at hj
            simp [hj.1]
          rw [List.filter_eq_self.mpr hall, range_split_at n i hilt, List.filter_append,
            List.filter_cons, if_pos hq]
        simp only [hjs]
        set A := (List.range' 0 i).filter (fun j => x.get? j == some c) with hAdef
        set C := (List.range' (i + 1) (n - i - 1)).filter (fun j => x.get? j == some c)
          with hCdef
        have hAlt : ∀ j ∈ A, j < i := by
          intro j hj
          rw [hAdef] at hj
          have hm1 := List.mem_of_mem_filter hj
          have hm2 := List.mem_range'_1.mp hm1
          omega
        have hCgt : ∀ j ∈ C, i + 1 ≤ j := by
          intro j hj
          rw [hCdef] at hj
          have hm1 := List.mem_of_mem_filter hj
          have hm2 := List.mem_range'_1.mp hm1
          omega
        have hmemA : ∀ j ∈ A, x.get? j = some c := by
          intro j hj
          rw [hAdef] at hj
          have hm1 := List.mem_filter.mp hj
          simpa using hm1.2
        have hmemC : ∀ j ∈ C, x.get? j = some c := by
          intro j hj
          rw [hCdef] at hj
          have hm1 := List.mem_filter.mp hj
          simpa using hm1.2
        have hrunWi : runW x i = (if i = 0 then 0 else runW x (i - 1)) + 1 :=
          runW_diag_true x i (diagOk_of_lookup x i c hgc hpop)
        have hkd : (if i = 0 then 0 else rowGet row (i - 1)) + 1 = runW x i := by
          rw [hrunWi, hDia]
        -- every cell value of this row is dominated by its column streak and
        -- by this row's streak
        have hjs1 : ∀ j ∈ A ++ i :: C,
            (if j = 0 then 0 else rowGet row (j - 1)) + 1 ≤ runW x j := by
          intro j hj
          rcases List.mem_append.mp hj with hjA | hjIC
          · have hrwj := runW_diag_true x j (diagOk_of_lookup x j c (hmemA j hjA) hpop)
            rw [hrwj]
            by_cases hj0 : j = 0
            · rw [if_pos hj0, if_pos hj0]
            · rw [if_neg hj0, if_neg hj0]
              have h1 := hR1 (j - 1)
              omega
          · rcases List.mem_cons.mp hjIC with hji | hjC
            · rw [hji, hkd]
            · have hrwj := runW_diag_true x j (diagOk_of_lookup x j c (hmemC j hjC) hpop)
              rw [hrwj]
              have hj0 : ¬ j = 0 := by have := hCgt j hjC; omega
              rw [if_neg hj0, if_neg hj0]
              have h1 := hR1 (j - 1)
              omega
        have hjs2 : ∀ j, (if j = 0 then 0 else rowGet row (j - 1)) + 1 ≤ runW x i := by
          intro j
          rw [hrunWi]
          by_cases hj0 : j = 0
          · rw [if_pos hj0]
            omega
          · rw [if_neg hj0]
            have h2 := hR2 (j - 1)
            by_cases hi0 : i = 0
            · rw [if_pos hi0] at h2 ⊢
              omega
            · rw [if_neg hi0] at h2 ⊢
              omega
        have hvalA : ∀ j ∈ A, (if j = 0 then 0 else rowGet row (j - 1)) + 1 ≤ s := by
          intro j hj
          exact le_trans (hjs1 j (List.mem_append_left _ hj)) (hB j (hAlt j hj))
        have hbestA : (flmCells row i A [] (d, d, s)).2 = (d, d, s) := by
          apply flmCells_no_update
          intro j hj
          show (if j = 0 then 0 else rowGet row (j - 1)) + 1 ≤ s
          exact hvalA j hj
        have hone : flmCells row i (i :: C) (flmCells row i A [] (d, d, s)).1 (d, d, s) =
            flmCells row i C
              ((i, (if i = 0 then 0 else rowGet row (i - 1)) + 1) ::
                (flmCells row i A [] (d, d, s)).1)
              (if s < (if i = 0 then 0 else rowGet row (i - 1)) + 1 then
                (i + 1 - ((if i = 0 then 0 else rowGet row (i - 1)) + 1),
                 i + 1 - ((if i = 0 then 0 else rowGet row (i - 1)) + 1),
                 (if i = 0 then 0 else rowGet row (i - 1)) + 1)
              else (d, d, s)) := rfl
        have hrowfull : (flmCells row i (A ++ i :: C) [] (d, d, s)).1 =
            ((A ++ i :: C).reverse.map
              (fun j => (j, (if j = 0 then 0 else rowGet row (j - 1)) + 1))) ++ [] :=
          flmCells_row row i (A ++ i :: C) [] (d, d, s)
        have hnd : ((A ++ i :: C).reverse).Nodup := by
          rw [List.nodup_reverse, ← hjs]
          exact List.Nodup.filter _
            (by unfold b2j; split; exacts [List.nodup_nil, b2jAll_nodup x c])
        by_cases hup : s < runW x i
        · -- the diagonal cell raises the best block to this row's streak
          have hkey : (flmCells row i (A ++ i :: C) [] (d, d, s)).2 =
              (i + 1 - runW x i, i + 1 - runW x i, runW x i) := by
            rw [flmCells_append, hbestA, hone, hkd, if_pos hup]
            apply flmCells_no_update
            intro j hj
            show (if j = 0 then 0 else rowGet row (j - 1)) + 1 ≤ runW x i
            exact hjs2 j
          rw [hkey, hrowfull, List.append_nil]
          refine ih (i + 1) (by omega) _ (i + 1 - runW x i) (runW x i) ?_ ?_ ?_ ?_ ?_
          · have hrl := runW_le x i
            omega
          · intro r hr
            by_cases hri : r < i
            · exact le_trans (hB r hri) (Nat.le_of_lt hup)
            · have hr' : r = i := by omega
              rw [hr']
          · intro j
            rw [rowGet_map _ _ _ hnd]
            by_cases hj : j ∈ (A ++ i :: C).reverse
            · rw [if_pos hj]
              exact hjs1 j (List.mem_reverse.mp hj)
            · rw [if_neg hj]
              exact Nat.zero_le _
          · intro j
            rw [rowGet_map _ _ _ hnd, if_neg (Nat.succ_ne_zero i), Nat.add_sub_cancel]
            by_cases hj : j ∈ (A ++ i :: C).reverse
            · rw [if_pos hj]
              exact hjs2 j
            · rw [if_neg hj]
              exact Nat.zero_le _
          · rw [if_neg (Nat.succ_ne_zero i), if_neg (Nat.succ_ne_zero i),
              Nat.add_sub_cancel, rowGet_map _ _ _ hnd,
              if_pos (by simp : i ∈ (A ++ i :: C).reverse)]
            exact hkd
        · -- this row's streak does not beat the best block: nothing changes
          have hkey : (flmCells row i (A ++ i :: C) [] (d, d, s)).2 = (d, d, s) := by
            rw [flmCells_append, hbestA, hone, hkd, if_neg hup]
            apply flmCells_no_update
            intro j hj
            show (if j = 0 then 0 else rowGet row (j - 1)) + 1 ≤ s
            exact le_trans (hjs2 j) (Nat.le_of_not_lt hup)
          rw [hkey, hrowfull, List.append_nil]
          refine ih (i + 1) (by omega) _ d s (by omega) ?_ ?_ ?_ ?_
          · intro r hr
            by_cases hri : r < i
            · exact hB r hri
            · have hr' : r = i := by omega
              rw [hr']
              exact Nat.le_of_not_lt hup
          · intro j
            rw [rowGet_map _ _ _ hnd]
            by_cases hj : j ∈ (A ++ i :: C).reverse
            · rw [if_pos hj]
              exact hjs1 j (List.mem_reverse.mp hj)
            · rw [if_neg hj]
              exact Nat.zero_le _
          · intro j
            rw [rowGet_map _ _ _ hnd, if_neg (Nat.succ_ne_zero i), Nat.add_sub_cancel]
            by_cases hj : j ∈ (A ++ i :: C).reverse
            · rw [if_pos hj]
              exact hjs2 j
            · rw [if_neg hj]
              exact Nat.zero_le _
          · rw [if_neg (Nat.succ_ne_zero i), if_neg (Nat.succ_ne_zero i),
              Nat.add_sub_cancel, rowGet_map _ _ _ hnd,
              if_pos (by simp : i ∈ (A ++ i :: C).reverse)]
            exact hkd

/-- The self-comparison scan from the empty table ends in a diagonal block
inside the window, purged characters or not. -/
theorem flmRows_self (x : Str) (n : Nat) (hn : n = x.length) :
    ∃ d s, flmRows x x 0 n (List.range' 0 n) [] ((0 : Nat), (0 : Nat), (0 : Nat)) =
      (d, d, s) ∧ d + s ≤ n :=
  flmRows_selfInv x n hn n 0 (Nat.zero_add n) [] 0 0 (Nat.le_refl 0)
    (fun r hr => absurd hr (Nat.not_lt_zero r)) (fun _ => Nat.zero_le _)
    (fun _ => Nat.le_refl 0) rfl

/-- On self-comparison the reported longest match is always the whole
sequence, whatever the length: the scan ends in a diagonal block, and the
non-junk extension loops — whose character test is constantly true, `bjunk`
being empty when `isjunk` is `None` — extend any diagonal block to the full
diagonal, through purged characters too. -/
theorem findLongestMatch_self (x : Str) :
    findLongestMatch x x 0 x.length 0 x.length = (0, 0, x.length) := by
  obtain ⟨d, s, hscan, hds⟩ := flmRows_self x x.length rfl
  unfold findLongestMatch
  dsimp only [Nat.sub_zero]
  rw [hscan]
  have e1 : extBack x x 0 0 (fun _ => true) d d s = (0, 0, d + s) :=
    extBack_self x d s (by omega)
  have e2 : extFwd x x x.length x.length (fun _ => true) x.length 0 0 (d + s) = x.length :=
    extFwd_self x x.length (d + s) hds (by omega)
  have e3 : extBack x x 0 0 (fun _ => false) 0 0 x.length = (0, 0, x.length) := rfl
  have e4 : extFwd x x x.length x.length (fun _ => false) x.length 0 0 x.length = x.length :=
    extFwd_stop x (fun _ => false) x.length
  simp only [e1, e2, e3, e4]

/-- On self-comparison the block-size sum is the whole length, whatever the
length: the first longest match already spans everything. -/
theorem matchingSum_self (x : Str) (hne : ¬ x = []) :
    matchingSum x x (x.length + x.length + 1) 0 x.length 0 x.length = x.length := by
  have hflm := findLongestMatch_self x
  obtain ⟨k, hk⟩ : ∃ k, x.length = k + 1 := by
    cases x with
    | nil => exact absurd rfl hne
    | cons a l => exact ⟨l.length, rfl⟩
  rw [hk] at hflm ⊢
  rw [show (k + 1) + (k + 1) + 1 = (k + 1 + k + 1) + 1 from by omega]
  rw [matchingSum, hflm]
  simp

/-- C5 reflexivity core: every non-empty sequence has similarity `1` with
itself, autojunk purging or not. -/
theorem ratio_self (x : Str) (hne : ¬ x = []) :
    ratio x x = 1 := by
  have hpos : 0 < x.length := List.length_pos.mpr hne
  have hlen : ¬ x.length + x.length = 0 := by omega
  rw [ratio_eq_div x x hlen, matchingSum_self x hne]
  have hq : ((x.length : ℚ) + x.length) ≠ 0 := by
    have : (0 : ℚ) < (x.length : ℚ) := by exact_mod_cast hpos
    positivity
  field_simp
  ring

/-- C5 counterexample: the similarity score is not symmetric — on `"aba"`
versus `"babba"` (both far below the autojunk threshold) the score is `3/4`,
but with the arguments swapped it is `1/2`. -/
theorem similar_asymmetric_counterexample :
    similar (some strAba) (some strBabba) ≠ similar (some strBabba) (some strAba) := by
  have e1 : similar (some strAba) (some strBabba) = ratio strAba strBabba := rfl
  have e2 : similar (some strBabba) (some strAba) = ratio strBabba strAba := rfl
  have hl1 : strAba.length = 3 := rfl
  have hl2 : strBabba.length = 5 := rfl
  have hm1 : matchingSum strAba strBabba (3 + 5 + 1) 0 3 0 5 = 3 := by decide
  have hm2 : matchingSum strBabba strAba (5 + 3 + 1) 0 5 0 3 = 2 := by decide
  rw [e1, e2, ratio_eq_div strAba strBabba (by rw [hl1, hl2]; omega),
    ratio_eq_div strBabba strAba (by rw [hl2, hl1]; omega), hl1, hl2, hm1, hm2]
  norm_num

/-- C5 (amended): the similarity score is reflexive — `similar(x, x) = 1`
for every non-empty string `x`, with no length restriction, since the
extension loops of `find_longest_match` test the empty `bjunk` set rather
than the autojunk-purged characters — and every score lies in the unit
interval `[0, 1]`; symmetry, however, fails (see the counterexample). -/
theorem similar_reflexive_bounded :
    (∀ x : Str, ¬ x = [] → similar (some x) (some x) = 1) ∧
    (∀ a b : Option Str, 0 ≤ similar a b ∧ similar a b ≤ 1) := by
  constructor
  · intro x hne
    show ratio x x = 1
    exact ratio_self x hne
  · intro a b
    exact similar_unit a b

/-- Witness for the amended C5 at the one-character string `"a"` and at a
missing second argument. -/
theorem similar_reflexive_bounded_witness :
    (¬ (['a'] : Str) = []) ∧
    similar (some ['a']) (some ['a']) = 1 ∧
    (0 ≤ similar (some ['a']) none ∧ similar (some ['a']) none ≤ 1) :=
  ⟨by decide,
   similar_reflexive_bounded.1 ['a'] (by decide),
   similar_reflexive_bounded.2 (some ['a']) none⟩

/-- Witness for the amended C1 on a concrete two-record list: translations
survive the round trip, and a present-but-empty `eng` value decodes to an
absent key. -/
theorem codec_roundtrip_witness :
    readWordlistFile (writeWordlistFile
      [{ word := "alep".data, pos := "Noun".data, swe := some "x(y".data, eng := some [] },
       { word := "bodne".data, pos := [] , nor := some "ben".data }]) =
      some [{ word := "alep".data, pos := "Noun".data, swe := some "x(y".data },
            { word := "bodne".data, nor := some "ben".data }] := by
  rw [codec_roundtrip _ (by decide)]
  decide
